import Mathlib

/-!
Verification of the sdk-gen schema-to-IR compiler against its specification.

The Go source is shallowly embedded: Go structs become inductive types,
Go maps become association lists (with the iteration order made explicit as
the list order, since Go map iteration order is unspecified), pointers that
may be nil become `Option`, and stateful functions thread their state
explicitly.  Metadata that no verified property inspects (annotations,
discriminators) is not modelled.
-/

namespace SdkGen

/-- The `IRSchemaKind` string constants from `pkg/ir/ir.go`, as a closed
enumeration.  `str` is `IRKindString`, `notK` is `IRKindNot`. -/
inductive IRKind where
  | unknown
  | str
  | number
  | integer
  | boolean
  | null
  | array
  | object
  | enum
  | ref
  | oneOf
  | anyOf
  | allOf
  | notK
deriving DecidableEq, Repr

/-- A Go literal value as found in an OpenAPI `enum:` list.  The Go code
stores these as `any` and inspects them with a type switch; only the cases
the switch names are modelled (`vother` covers every other dynamic type). -/
inductive GoVal where
  | vstr (s : String)
  | vint (n : Int)
  | vbool (b : Bool)
  | vother
deriving DecidableEq, Repr

/-- `fmt.Sprint` as applied to the modelled literal values. -/
def GoVal.sprint : GoVal → String
  | .vstr s => s
  | .vint n => toString n
  | .vbool true => "true"
  | .vbool false => "false"
  | .vother => "<value>"

mutual
/-- `ir.IRSchema` from `pkg/ir/ir.go`: a single struct carrying a `Kind`
tag plus every shape-specific field (Go leaves unused fields at their zero
value).  `EnumRaw` is the raw literal list; `Not` is `notMember` here. -/
inductive IRSchema where
  | mk
    (kind : IRKind)
    (nullable : Bool)
    (format : String)
    (properties : List IRField)
    (additionalProperties : Option IRSchema)
    (items : Option IRSchema)
    (enumValues : List String)
    (enumRaw : List GoVal)
    (enumBase : IRKind)
    (ref : String)
    (oneOf : List IRSchema)
    (anyOf : List IRSchema)
    (allOf : List IRSchema)
    (notMember : Option IRSchema)
/-- `ir.IRField`.  The Go `Type *IRSchema` pointer is set at every
construction site, so it is modelled as a plain value; nil-guards over it
in traversal code are consequently vacuous. -/
inductive IRField where
  | mk (name : String) (type : IRSchema) (required : Bool)
end

def IRSchema.kind : IRSchema → IRKind
  | .mk k _ _ _ _ _ _ _ _ _ _ _ _ _ => k

def IRSchema.nullable : IRSchema → Bool
  | .mk _ n _ _ _ _ _ _ _ _ _ _ _ _ => n

def IRSchema.format : IRSchema → String
  | .mk _ _ f _ _ _ _ _ _ _ _ _ _ _ => f

def IRSchema.properties : IRSchema → List IRField
  | .mk _ _ _ p _ _ _ _ _ _ _ _ _ _ => p

def IRSchema.additionalProperties : IRSchema → Option IRSchema
  | .mk _ _ _ _ a _ _ _ _ _ _ _ _ _ => a

def IRSchema.items : IRSchema → Option IRSchema
  | .mk _ _ _ _ _ i _ _ _ _ _ _ _ _ => i

def IRSchema.enumValues : IRSchema → List String
  | .mk _ _ _ _ _ _ v _ _ _ _ _ _ _ => v

def IRSchema.enumRaw : IRSchema → List GoVal
  | .mk _ _ _ _ _ _ _ r _ _ _ _ _ _ => r

def IRSchema.enumBase : IRSchema → IRKind
  | .mk _ _ _ _ _ _ _ _ b _ _ _ _ _ => b

def IRSchema.ref : IRSchema → String
  | .mk _ _ _ _ _ _ _ _ _ r _ _ _ _ => r

def IRSchema.oneOf : IRSchema → List IRSchema
  | .mk _ _ _ _ _ _ _ _ _ _ o _ _ _ => o

def IRSchema.anyOf : IRSchema → List IRSchema
  | .mk _ _ _ _ _ _ _ _ _ _ _ a _ _ => a

def IRSchema.allOf : IRSchema → List IRSchema
  | .mk _ _ _ _ _ _ _ _ _ _ _ _ a _ => a

def IRSchema.notMember : IRSchema → Option IRSchema
  | .mk _ _ _ _ _ _ _ _ _ _ _ _ _ n => n

def IRField.name : IRField → String
  | .mk n _ _ => n

def IRField.type : IRField → IRSchema
  | .mk _ t _ => t

def IRField.required : IRField → Bool
  | .mk _ _ r => r

/-- A Go composite literal `ir.IRSchema{Kind: k}` with every other field at
its zero value. -/
def IRSchema.ofKind (k : IRKind) : IRSchema :=
  .mk k false "" [] none none [] [] .unknown "" [] [] [] none

/-- `ir.IRSchema{Kind: IRKindRef, Ref: name}`. -/
def IRSchema.mkRef (name : String) : IRSchema :=
  .mk .ref false "" [] none none [] [] .unknown name [] [] [] none

/-- `ir.IRParam`. -/
structure IRParam where
  name : String
  required : Bool
  schema : IRSchema
  description : String

/-- `ir.IRRequestBody` (the legacy `TypeTS` string is kept because the
extraction code writes it). -/
structure IRRequestBody where
  contentType : String
  typeTS : String
  required : Bool
  schema : IRSchema

/-- `ir.IRResponse`. -/
structure IRResponse where
  typeTS : String
  schema : IRSchema
  description : String

/-- `ir.IRModelDef` (annotations not modelled). -/
structure IRModelDef where
  name : String
  schema : IRSchema

/-- `ir.IROperation`, restricted to the fields the verified code reads. -/
structure IROperation where
  operationId : String
  method : String
  path : String
  tag : String
  originalTags : List String
  pathParams : List IRParam
  queryParams : List IRParam
  requestBody : Option IRRequestBody
  response : IRResponse

/-- `ir.IRService`. -/
structure IRService where
  tag : String
  operations : List IROperation

/-- `ir.IR`, restricted to services and structured model definitions. -/
structure IR where
  services : List IRService
  modelDefs : List IRModelDef

/-! ### NamingEngine: word splitting (`pkg/utils/strings.go`)

`RemoveAccents` Unicode-normalizes and drops combining marks; it is the
identity on ASCII text, and every property below is evaluated on ASCII
input, so it is modelled as the identity. -/

def removeAccents (s : List Char) : List Char := s

/-- ASCII character class `[A-Za-z0-9]` used by both regexes in
`strings.go`. -/
def isAlnumAscii (c : Char) : Bool :=
  (('a' ≤ c && c ≤ 'z') || ('A' ≤ c && c ≤ 'Z') || ('0' ≤ c && c ≤ '9'))

/-- `isUppercase` from `strings.go`: `r >= 'A' && r <= 'Z'`. -/
def isUppercaseGo (c : Char) : Bool :=
  'A' ≤ c && c ≤ 'Z'

/-- Character class `[a-z0-9]`, the left side of the `camelSplit` regex. -/
def isLowerDigitAscii (c : Char) : Bool :=
  ('a' ≤ c && c ≤ 'z') || ('0' ≤ c && c ≤ '9')

/-- `camelSplit.ReplaceAllString(s, "$1 $2")` with pattern
`([a-z0-9])([A-Z])`: a space is inserted between every adjacent pair
(lower-or-digit, upper).  Matches of this pattern can never overlap
(a character cannot be both upper and lower-or-digit), so the
non-overlapping regex replacement equals this pairwise insertion. -/
def camelSplitInsert : List Char → List Char
  | [] => []
  | [c] => [c]
  | c1 :: c2 :: rest =>
      if isLowerDigitAscii c1 && isUppercaseGo c2 then
        c1 :: ' ' :: camelSplitInsert (c2 :: rest)
      else
        c1 :: camelSplitInsert (c2 :: rest)

/-- Splitting on `[^A-Za-z0-9]+` followed by dropping empty parts equals
collecting the maximal alphanumeric runs. -/
def alnumRuns : List Char → List (List Char)
  | [] => []
  | c :: rest =>
      if isAlnumAscii c then
        match alnumRuns rest with
        | [] => [[c]]
        | run :: runs =>
            match rest with
            | [] => [[c]]
            | r :: _ => if isAlnumAscii r then (c :: run) :: runs else [c] :: run :: runs
      else
        alnumRuns rest

/-- `utils.SplitWords`: trim, remove accents, insert camel boundaries via
the `([a-z0-9])([A-Z])` regex, split on non-alphanumeric runs and drop
empties. -/
def splitWords (s : String) : List String :=
  let t := (s.toList.dropWhile Char.isWhitespace).reverse.dropWhile Char.isWhitespace |>.reverse
  if t.isEmpty then []
  else
    (alnumRuns (camelSplitInsert (removeAccents t))).map (fun cs => String.mk cs)

/-- The loop body of `utils.SplitCamelCase`: `currentRev` is the current
word accumulated in reverse, `prev` the previous rune; a new word starts at
an uppercase rune whose predecessor was lowercase, or whose predecessor was
uppercase while its successor is lowercase. -/
def splitCamelCaseAux (currentRev : List Char) (prev : Char) : List Char → List (List Char)
  | [] => if currentRev.isEmpty then [] else [currentRev.reverse]
  | r :: rest =>
      let nextNotUpper : Bool :=
        match rest with
        | n :: _ => !(isUppercaseGo n)
        | [] => false
      let isNewWord : Bool :=
        isUppercaseGo r && (!(isUppercaseGo prev) || nextNotUpper)
      if isNewWord && !currentRev.isEmpty then
        currentRev.reverse :: splitCamelCaseAux [r] r rest
      else
        splitCamelCaseAux (r :: currentRev) r rest

/-- `utils.SplitCamelCase`: the rune-based acronym-aware splitter.  The
`i > 0` guard in the source is mirrored by consuming the first rune before
entering the loop. -/
def splitCamelCase (s : String) : List String :=
  match s.toList with
  | [] => []
  | c :: rest => (splitCamelCaseAux [c] c rest).map (fun cs => String.mk cs)

/-- `splitCamelCase` over a rune list (the body of `utils.SplitCamelCase`
after the empty-string guard). -/
def splitCamelCaseL : List Char → List (List Char)
  | [] => []
  | c :: rest => splitCamelCaseAux [c] c rest

/-- Go `strings.ToUpper(p[:1]) + strings.ToLower(p[1:])` on an ASCII
word. -/
def capitalizeGo : List Char → List Char
  | [] => []
  | c :: rest => c.toUpper :: rest.map Char.toLower

/-- `utils.ToPascalCaseAdvanced`: split on non-alphanumeric runs, further
split each part with `SplitCamelCase`, then capitalize each word and
concatenate. -/
def toPascalCaseAdvanced (s : String) : String :=
  let t := (s.toList.dropWhile Char.isWhitespace).reverse.dropWhile Char.isWhitespace |>.reverse
  if t.isEmpty then ""
  else
    let allParts := (alnumRuns (removeAccents t)).flatMap splitCamelCaseL
    if allParts.isEmpty then ""
    else String.mk (allParts.flatMap capitalizeGo)

/-- `strings.Contains` via list infix search: some suffix of `s` starts
with `pat`. -/
def strContainsSub (s pat : String) : Bool :=
  s.toList.tails.any fun t => pat.toList.isPrefixOf t

mutual

/-- `schemaToTSType` from the TypeScript-types generator.  The Go function
computes a base type `t` by a kind switch and then appends `" | null"` when
the node is nullable and `t` is not already the `null` literal; the switch
body is split out as `tsBaseType` below so the wrap step can be named. -/
def schemaToTSType (s : IRSchema) : String :=
  let t := tsBaseType s
  if s.nullable && t ≠ "null" then t ++ " | null" else t
termination_by (sizeOf s, 1)

/-- The kind switch of `schemaToTSType` (the value of `t` before the
nullable wrap).  The switch has no `not`/`additionalProperties` handling:
those fall to the object/default branches exactly as in Go. -/
def tsBaseType : IRSchema → String
  | .mk kind _nullable format props _addl items ev _er eb ref one anyL allL _ntM =>
    match kind with
    | .str => if format = "binary" then "Blob" else "string"
    | .number => "number"
    | .integer => "number"
    | .boolean => "boolean"
    | .null => "null"
    | .ref => if ref ≠ "" then "Schema." ++ ref else "unknown"
    | .array =>
        match items with
        | some it =>
            let inner := schemaToTSType it
            let inner :=
              if strContainsSub inner " | " || strContainsSub inner " & " then
                "(" ++ inner ++ ")"
              else inner
            "Array<" ++ inner ++ ">"
        | none => "Array<unknown>"
    | .oneOf => String.intercalate " | " (one.attach.map fun c => schemaToTSType c.1)
    | .anyOf => String.intercalate " | " (anyL.attach.map fun c => schemaToTSType c.1)
    | .allOf => String.intercalate " & " (allL.attach.map fun c => schemaToTSType c.1)
    | .enum =>
        if ev.length > 0 then
          let vals : List String :=
            match eb with
            | .number => ev
            | .integer => ev
            | .boolean => ev.map fun v => if v = "true" || v = "false" then v else "\"" ++ v ++ "\""
            | _ => ev.map fun v => "\"" ++ v ++ "\""
          String.intercalate " | " vals
        else "unknown"
    | .object =>
        if props.length = 0 then "Record<string, unknown>"
        else
          let parts := props.attach.map fun f =>
            let ft := schemaToTSType f.1.type
            if f.1.required then f.1.name ++ ": " ++ ft else f.1.name ++ "?: " ++ ft
          "\x7b" ++ String.intercalate "; " parts ++ "\x7d"
    | _ => "unknown"
termination_by s => (sizeOf s, 0)
decreasing_by
  all_goals simp_wf
  all_goals try (left; omega)
  all_goals
    first
      | (have hlt := List.sizeOf_lt_of_mem c.2; left; omega)
      | (obtain ⟨⟨fn, ft, fr⟩, hf⟩ := f
         have hlt := List.sizeOf_lt_of_mem hf
         simp only [IRField.type]
         simp at hlt
         left
         omega)

end

mutual

/-- `schemaToGoTypeImpl` from the Go generator's helpers.  The Go function
computes a base type by a kind switch and then prepends a `*` pointer
wrapper whenever the node is nullable; the Go vocabulary has no null
literal type — the `null` kind maps to `interface\x7b\x7d` like the
unknown kind — so no null-literal exception arises there. -/
def schemaToGoTypeImpl (s : IRSchema) : String :=
  let t := goBaseType s
  if s.nullable then "*" ++ t else t
termination_by (sizeOf s, 1)

/-- The kind switch of `schemaToGoTypeImpl` (the value of `t` before the
pointer wrap). -/
def goBaseType : IRSchema → String
  | .mk kind _nullable format _props _addl items _ev _er _eb ref _one _anyL _allL _ntM =>
    match kind with
    | .str => if format = "binary" then "[]byte" else "string"
    | .number => "float64"
    | .integer => "int64"
    | .boolean => "bool"
    | .null => "interface\x7b\x7d"
    | .ref => if ref ≠ "" then toPascalCaseAdvanced ref else "interface\x7b\x7d"
    | .array =>
        match items with
        | some it => "[]" ++ schemaToGoTypeImpl it
        | none => "[]interface\x7b\x7d"
    | .oneOf => "interface\x7b\x7d"
    | .anyOf => "interface\x7b\x7d"
    | .allOf => "interface\x7b\x7d"
    | .enum => "string"
    | .object => "map[string]interface\x7b\x7d"
    | _ => "interface\x7b\x7d"
termination_by s => (sizeOf s, 0)
decreasing_by
  simp_wf
  left
  omega

end

/-! ### TagFilter (`pkg/generator/typescript/generator.go`, per-operation
policy)

Compiled regular expressions are modelled as abstract match predicates
`String → Bool`; regex compilation is outside the verified core. -/

/-- `shouldIncludeOperation`: inclusion passes when the include list is
empty or some tag matches some include pattern; a failed inclusion drops
the operation; afterwards any tag matching any exclude pattern drops it. -/
def shouldIncludeOperation (originalTags : List String)
    (includePats excludePats : List (String → Bool)) : Bool :=
  let included :=
    if includePats.isEmpty then true
    else originalTags.any fun t => includePats.any fun r => r t
  if !included then false
  else !(originalTags.any fun t => excludePats.any fun r => r t)

/-- The service/operation filtering loop of `filterIR`: each service keeps
the operations passing `shouldIncludeOperation` on their original tags, and
a service is kept only when at least one operation survives. -/
def filterIRServices (services : List IRService)
    (includePats excludePats : List (String → Bool)) : List IRService :=
  match services with
  | [] => []
  | sv :: rest =>
      let filteredOps :=
        sv.operations.filter fun op =>
          shouldIncludeOperation op.originalTags includePats excludePats
      if filteredOps.length > 0 then
        ⟨sv.tag, filteredOps⟩ :: filterIRServices rest includePats excludePats
      else
        filterIRServices rest includePats excludePats

/-! ### Deduplicator -/

/-- Modelled from the spec: the Deduplicator of §4.6 has no implementation
under `src/` (the spec describes it as a pipeline stage, but no source
function performs name deduplication).  Per the spec's words, the choice
for one name keeps an `Enum`-kind entry when one exists (the enum wins a
collision with a non-enum entry), else the first entry under that name. -/
def pickForName (models : List IRModelDef) (n : String) : Option IRModelDef :=
  let entries := models.filter fun m => m.name = n
  match entries.find? (fun m => m.schema.kind = IRKind.enum) with
  | some e => some e
  | none => entries.head?

/-- Modelled from the spec: §4.6 "Given the (possibly duplicate-containing)
accumulated model list, produce one entry per unique name", with the enum
entry winning an enum/non-enum collision. -/
def dedupeModels (models : List IRModelDef) : List IRModelDef :=
  (models.map (fun m => m.name)).dedup.filterMap (pickForName models)

/-! ### Path-parameter ordering (`pkg/ir/ir.go` `orderPathParams`; the Go
generator's helper in `pkg/generator/golang/helpers.go` extracts the same
brace-delimited names by regex) -/

/-- The scanning loop of `orderPathParams`, as a two-mode scan: outside a
brace, an opening `\x7b` switches to collecting mode (`some acc`); inside,
the first `\x7d` emits the collected name and returns to outside mode.  An
opening brace with no closing brace in the remainder emits nothing in the
Go loop and the loop then rescans the tail, which contains no `\x7d`, so no
further name can be emitted — matching the end-of-input case here. -/
def scanBracesAux : Option (List Char) → List Char → List String
  | _, [] => []
  | none, c :: rest =>
      if c = '{' then scanBracesAux (some []) rest else scanBracesAux none rest
  | some acc, c :: rest =>
      if c = '}' then String.mk acc.reverse :: scanBracesAux none rest
      else scanBracesAux (some (c :: acc)) rest

/-- Every `\x7bname\x7d` occurrence in the path, in order of appearance. -/
def scanBraces (cs : List Char) : List String :=
  scanBracesAux none cs

/-- `orderPathParams` from `pkg/ir/ir.go`: build a name→index map over the
declared path parameters (later entries overwrite earlier ones, as in a Go
map), then emit the mapped parameter for each brace-delimited name in the
path, in path order, skipping names with no declared parameter. -/
def orderPathParams (op : IROperation) : List IRParam :=
  (scanBraces op.path.toList).filterMap fun n =>
    op.pathParams.reverse.find? fun p => p.name = n

/-! ### The validated OpenAPI document tree (`kin-openapi` view)

Only what the verified functions read is modelled.  A schema's `type` is
modelled as a single optional kind (the multi-type 3.1 form is not
exercised by any claim); maps are association lists whose order is the Go
map iteration order where the code iterates, with key lookup
order-insensitive on duplicate-free key sets. -/

/-- The `openapi3.Type*` constants tested via `Types.Is`. -/
inductive OType where
  | string
  | integer
  | number
  | boolean
  | array
  | object
deriving DecidableEq, Repr

mutual
/-- `openapi3.SchemaRef`: a reference string (empty when inline) plus the
resolved value (`none` models a nil `Value` pointer). -/
inductive ORef where
  | mk (ref : String) (value : Option OSchema)
/-- `openapi3.Schema`, restricted to the fields the conversion reads. -/
inductive OSchema where
  | mk
    (otype : Option OType)
    (format : String)
    (nullable : Bool)
    (properties : List (String × ORef))
    (required : List String)
    (enumVals : List GoVal)
    (oneOf : List ORef)
    (anyOf : List ORef)
    (allOf : List ORef)
    (notS : Option ORef)
    (items : Option ORef)
    (additionalProperties : Option ORef)
end

def ORef.ref : ORef → String
  | .mk r _ => r

def ORef.value : ORef → Option OSchema
  | .mk _ v => v

def OSchema.otype : OSchema → Option OType
  | .mk t _ _ _ _ _ _ _ _ _ _ _ => t

def OSchema.format : OSchema → String
  | .mk _ f _ _ _ _ _ _ _ _ _ _ => f

def OSchema.nullable : OSchema → Bool
  | .mk _ _ n _ _ _ _ _ _ _ _ _ => n

def OSchema.properties : OSchema → List (String × ORef)
  | .mk _ _ _ p _ _ _ _ _ _ _ _ => p

def OSchema.required : OSchema → List String
  | .mk _ _ _ _ r _ _ _ _ _ _ _ => r

def OSchema.enumVals : OSchema → List GoVal
  | .mk _ _ _ _ _ e _ _ _ _ _ _ => e

def OSchema.oneOf : OSchema → List ORef
  | .mk _ _ _ _ _ _ o _ _ _ _ _ => o

def OSchema.anyOf : OSchema → List ORef
  | .mk _ _ _ _ _ _ _ a _ _ _ _ => a

def OSchema.allOf : OSchema → List ORef
  | .mk _ _ _ _ _ _ _ _ a _ _ _ => a

def OSchema.notS : OSchema → Option ORef
  | .mk _ _ _ _ _ _ _ _ _ n _ _ => n

def OSchema.items : OSchema → Option ORef
  | .mk _ _ _ _ _ _ _ _ _ _ i _ => i

def OSchema.additionalProperties : OSchema → Option ORef
  | .mk _ _ _ _ _ _ _ _ _ _ _ a => a

/-- Insertion of a string into a sorted list (ascending). -/
def insertStr (x : String) : List String → List String
  | [] => [x]
  | y :: ys => if x ≤ y then x :: y :: ys else y :: insertStr x ys

/-- `sort.Strings`: ascending lexicographic sort (insertion sort; Go's
byte-wise order coincides with the code-point order on ASCII keys). -/
def sortStrings : List String → List String
  | [] => []
  | x :: xs => insertStr x (sortStrings xs)

/-- The local `toPascal` helper of `internal/cli/run.go`: split on
non-alphanumeric runs, then capitalize each part (first letter upper, rest
lower) and concatenate — no camel-case splitting. -/
def toPascalGo (s : String) : String :=
  let t := (s.toList.dropWhile Char.isWhitespace).reverse.dropWhile Char.isWhitespace |>.reverse
  String.mk ((alnumRuns t).flatMap capitalizeGo)

/-- `inferEnumBaseKind` from `internal/cli/run.go`: prefer the declared
type; otherwise inspect the first literal's dynamic type (the float cases
collapse into `vother` → `unknown` here, as no claim exercises float
enums). -/
def inferEnumBaseKind (s : OSchema) : IRKind :=
  match s.otype with
  | some .string => .str
  | some .integer => .integer
  | some .number => .number
  | some .boolean => .boolean
  | _ =>
      match s.enumVals.head? with
      | some (.vstr _) => .str
      | some (.vint _) => .integer
      | some (.vbool _) => .boolean
      | _ => .unknown

/-- Shared reference-to-name resolution of `schemaRefToIR` and
`schemaRefToIRWithNaming`: strip the `#/components/schemas/` prefix, else
take the last `/`-separated segment. -/
def refToName (refStr : String) : IRSchema :=
  if "#/components/schemas/".isPrefixOf refStr then
    IRSchema.mkRef (refStr.drop "#/components/schemas/".length)
  else
    match (refStr.splitOn "/").getLast? with
    | some name => if name ≠ "" then IRSchema.mkRef name else IRSchema.ofKind .unknown
    | none => IRSchema.ofKind .unknown

/-- `ir.IRSchema{Kind: k, Nullable: b}`. -/
def IRSchema.ofKindN (k : IRKind) (nullable : Bool) : IRSchema :=
  .mk k nullable "" [] none none [] [] .unknown "" [] [] [] none

/-- `ir.IRSchema{Kind: String, Nullable: b, Format: f}`. -/
def IRSchema.mkString (nullable : Bool) (format : String) : IRSchema :=
  .mk .str nullable format [] none none [] [] .unknown "" [] [] [] none

/-- `ir.IRSchema{Kind: Array, Items: &item, Nullable: b}`. -/
def IRSchema.mkArray (item : IRSchema) (nullable : Bool) : IRSchema :=
  .mk .array nullable "" [] none (some item) [] [] .unknown "" [] [] [] none

/-- `ir.IRSchema{Kind: Object, Properties: fields, AdditionalProperties: addl, Nullable: b}`. -/
def IRSchema.mkObject (fields : List IRField) (addl : Option IRSchema) (nullable : Bool) : IRSchema :=
  .mk .object nullable "" fields addl none [] [] .unknown "" [] [] [] none

/-- `ir.IRSchema{Kind: Enum, EnumValues: vals, EnumRaw: raw, EnumBase: base, Nullable: b}`. -/
def IRSchema.mkEnum (vals : List String) (raw : List GoVal) (base : IRKind) (nullable : Bool) : IRSchema :=
  .mk .enum nullable "" [] none none vals raw base "" [] [] [] none

/-- `ir.IRSchema{Kind: Ref, Ref: name, Nullable: b}`. -/
def IRSchema.mkRefN (name : String) (nullable : Bool) : IRSchema :=
  .mk .ref nullable "" [] none none [] [] .unknown name [] [] [] none

/-- `ir.IRSchema{Kind: OneOf, OneOf: subs, Nullable: b}`. -/
def IRSchema.mkOneOf (subs : List IRSchema) (nullable : Bool) : IRSchema :=
  .mk .oneOf nullable "" [] none none [] [] .unknown "" subs [] [] none

/-- `ir.IRSchema{Kind: AnyOf, AnyOf: subs, Nullable: b}`. -/
def IRSchema.mkAnyOf (subs : List IRSchema) (nullable : Bool) : IRSchema :=
  .mk .anyOf nullable "" [] none none [] [] .unknown "" [] subs [] none

/-- `ir.IRSchema{Kind: AllOf, AllOf: subs, Nullable: b}`. -/
def IRSchema.mkAllOf (subs : List IRSchema) (nullable : Bool) : IRSchema :=
  .mk .allOf nullable "" [] none none [] [] .unknown "" [] [] subs none

/-- `ir.IRSchema{Kind: Not, Not: &inner, Nullable: b}`. -/
def IRSchema.mkNot (inner : IRSchema) (nullable : Bool) : IRSchema :=
  .mk .notK nullable "" [] none none [] [] .unknown "" [] [] [] (some inner)

/-- Insertion of a field into a list sorted ascending by field name. -/
def insertField (f : IRField) : List IRField → List IRField
  | [] => [f]
  | g :: gs => if f.name ≤ g.name then f :: g :: gs else g :: insertField f gs

/-- Sorting a field list by name.  The Go code sorts the property-key set
before iterating the map; converting in association-list order and sorting
the resulting fields gives the same field list for a well-formed map
(distinct keys), and no verified property depends on the relative hoisting
order of sibling properties. -/
def sortFields : List IRField → List IRField
  | [] => []
  | f :: fs => insertField f (sortFields fs)

/-- `schemaRefToIR` from `internal/cli/run.go` (the identical function in
the TypeScript generator snapshot is the same code): reference-first
conversion without synthetic naming; discriminator metadata is not
modelled. -/
def schemaRefToIR : Option ORef → IRSchema
  | none => IRSchema.ofKind .unknown
  | some (.mk refStr val) =>
    if refStr ≠ "" then refToName refStr
    else
      match val with
      | none => IRSchema.ofKind .unknown
      | some (.mk otype format nullable props req enumVals one anyL allL notS itemsO addlO) =>
        if one.length > 0 then
          IRSchema.mkOneOf (one.attach.map fun r => schemaRefToIR (some r.1)) nullable
        else if anyL.length > 0 then
          IRSchema.mkAnyOf (anyL.attach.map fun r => schemaRefToIR (some r.1)) nullable
        else if allL.length > 0 then
          IRSchema.mkAllOf (allL.attach.map fun r => schemaRefToIR (some r.1)) nullable
        else
          match notS with
          | some n => IRSchema.mkNot (schemaRefToIR (some n)) nullable
          | none =>
            if enumVals.length > 0 then
              IRSchema.mkEnum (enumVals.map GoVal.sprint) enumVals
                (inferEnumBaseKind (.mk otype format nullable props req enumVals one anyL allL none itemsO addlO))
                nullable
            else
              match otype with
              | some .string => IRSchema.mkString nullable format
              | some .integer => IRSchema.ofKindN .integer nullable
              | some .number => IRSchema.ofKindN .number nullable
              | some .boolean => IRSchema.ofKindN .boolean nullable
              | some .array =>
                  match itemsO with
                  | some it => IRSchema.mkArray (schemaRefToIR (some it)) nullable
                  | none => IRSchema.mkArray (IRSchema.ofKind .unknown) nullable
              | some .object =>
                  let fields := sortFields (props.attach.map fun p =>
                    IRField.mk p.1.1 (schemaRefToIR (some p.1.2)) (req.contains p.1.1))
                  let addl :=
                    match addlO with
                    | some a => some (schemaRefToIR (some a))
                    | none => none
                  IRSchema.mkObject fields addl nullable
              | none => IRSchema.ofKindN .unknown nullable
termination_by sr => sizeOf sr
decreasing_by
  all_goals simp_wf
  all_goals try omega
  all_goals
    first
      | (have hlt := List.sizeOf_lt_of_mem r.2; omega)
      | (have hlt := List.sizeOf_lt_of_mem p.2
         obtain ⟨⟨pn, pv⟩, hp⟩ := p
         simp at hlt ⊢
         omega)

/-! ### OperationCollector: request-body and response selection
(`internal/cli/run.go` `extractRequestBody`/`extractResponse`; the
functions in `pkg/generator/typescript/generator.go` are
character-identical) -/

/-- `openapi3.MediaType`, restricted to its schema. -/
structure OMedia where
  schema : Option ORef

/-- `openapi3.RequestBody` behind its ref (a nil ref or nil value is
`none` at the operation); `content` order is the Go map iteration order. -/
structure OReqBody where
  required : Bool
  content : List (String × OMedia)

/-- `openapi3.Response` behind its ref; `description` is a nil-able
pointer. -/
structure OResp where
  description : Option String
  content : List (String × OMedia)

/-- The slice of `openapi3.Operation` read by the extraction functions:
`responses` is `nil`-able, each entry's value models a possibly-nil
`*ResponseRef`/`Value` (collapsed to one `Option`), and entry order is the
Go map iteration order. -/
structure OOperation where
  requestBody : Option OReqBody
  responses : Option (List (String × Option OResp))

/-- `extractRequestBody`: prefer `application/json`, then the form
encoding, then the multipart marker with an `Unknown` schema, then the
first media type in iteration order; an empty content map yields no
request body. -/
def extractRequestBody (op : OOperation) : Option IRRequestBody :=
  match op.requestBody with
  | none => none
  | some rb =>
    match rb.content.lookup "application/json" with
    | some media =>
        some ⟨"application/json", "", rb.required, schemaRefToIR media.schema⟩
    | none =>
      match rb.content.lookup "application/x-www-form-urlencoded" with
      | some media =>
          some ⟨"application/x-www-form-urlencoded", "", rb.required, schemaRefToIR media.schema⟩
      | none =>
        match rb.content.lookup "multipart/form-data" with
        | some _ =>
            some ⟨"multipart/form-data", "", rb.required, IRSchema.ofKind .unknown⟩
        | none =>
          match rb.content with
          | [] => none
          | (ct, media) :: _ =>
              some ⟨ct, "", rb.required, schemaRefToIR media.schema⟩

/-- The zero `ir.IRSchema` value (its empty `Kind` string behaves exactly
like the `unknown` kind in every verified consumer, and is modelled as
such). -/
def zeroSchema : IRSchema := IRSchema.ofKind .unknown

/-- The `200`/`201` handling inside `extractResponse`: `application/json`
first, else the first declared media type in iteration order, else an
explicit no-content (`void`) response. -/
def respFromStatus (rv : OResp) : IRResponse :=
  let desc := rv.description.getD ""
  match rv.content.lookup "application/json" with
  | some media => ⟨"", schemaRefToIR media.schema, desc⟩
  | none =>
    match rv.content with
    | (_, media) :: _ => ⟨"", schemaRefToIR media.schema, desc⟩
    | [] => ⟨"void", zeroSchema, desc⟩

/-- A response status code of the `2xx` class: three bytes starting with
`2`. -/
def is2xxCode (code : String) : Bool :=
  code.length = 3 && code.toList.head? = some '2'

/-- The `2xx` fallback loop of `extractResponse`: the first entry (in
iteration order) whose code is three bytes starting with `2` and whose
response value is present is taken — `204` yields `void`, a status with
content yields its schema, and a non-`204` status without content is
skipped (the loop continues). -/
def scan2xx : List (String × Option OResp) → Option IRResponse
  | [] => none
  | (code, rrOpt) :: rest =>
      if is2xxCode code then
        match rrOpt with
        | some rv =>
            let desc := rv.description.getD ""
            if code = "204" then some ⟨"void", zeroSchema, desc⟩
            else
              match rv.content.lookup "application/json" with
              | some media => some ⟨"", schemaRefToIR media.schema, desc⟩
              | none =>
                match rv.content with
                | (_, media) :: _ => some ⟨"", schemaRefToIR media.schema, desc⟩
                | [] => scan2xx rest
        | none => scan2xx rest
      else scan2xx rest

/-- `pick` plus the per-status handling for an explicit status code. -/
def tryStatus (op : OOperation) (code : String) : Option IRResponse :=
  match op.responses with
  | none => none
  | some m =>
    match m.lookup code with
    | some (some rv) => some (respFromStatus rv)
    | _ => none

/-- `extractResponse`: status `200`, then `201`, then the `2xx` scan, then
the explicit `unknown` marker. -/
def extractResponse (op : OOperation) : IRResponse :=
  match tryStatus op "200" with
  | some r => r
  | none =>
    match tryStatus op "201" with
    | some r => r
    | none =>
      match op.responses with
      | some m => (scan2xx m).getD ⟨"unknown", zeroSchema, ""⟩
      | none => ⟨"unknown", zeroSchema, ""⟩

/-- Spec wording of the per-status precedence (§4.3, amended): prefer the
structured media type, else any declared media type (first in iteration
order), else an explicit no-content response. -/
def respSpec (rv : OResp) : IRResponse :=
  match (rv.content.lookup "application/json").orElse
      (fun _ => rv.content.head?.map Prod.snd) with
  | some media => ⟨"", schemaRefToIR media.schema, rv.description.getD ""⟩
  | none => ⟨"void", zeroSchema, rv.description.getD ""⟩

/-- Eligibility of a responses-map entry for the `2xx` fallback (amended
claim): a present `2xx` response that is either status `204` or declares
at least one media type. -/
def eligible2xx : (String × Option OResp) → Bool
  | (code, some rv) => is2xxCode code && (code = "204" || !rv.content.isEmpty)
  | (_, none) => false

/-- The response emitted for an eligible `2xx` entry: `204` is the explicit
no-content response; otherwise the structured media type is preferred, then
the first declared media type.  (The fall-through cases cannot arise for
eligible entries.) -/
def emit2xxSpec : (String × Option OResp) → IRResponse
  | (code, some rv) =>
      if code = "204" then ⟨"void", zeroSchema, rv.description.getD ""⟩
      else
        match (rv.content.lookup "application/json").orElse
            (fun _ => rv.content.head?.map Prod.snd) with
        | some media => ⟨"", schemaRefToIR media.schema, rv.description.getD ""⟩
        | none => ⟨"unknown", zeroSchema, rv.description.getD ""⟩
  | (_, none) => ⟨"unknown", zeroSchema, ""⟩

/-- The response-selection precedence in the amended claim's words: status
`200` then `201` with the per-status precedence, else the first eligible
`2xx` entry in iteration order (only `204` counts as no-content there; a
contentless non-`204` status is skipped), else the explicit `unknown`
marker. -/
def specExtractResponse (op : OOperation) : IRResponse :=
  let rs := op.responses.getD []
  let byStatus : String → Option IRResponse := fun code =>
    match rs.lookup code with
    | some (some rv) => some (respSpec rv)
    | _ => none
  (((byStatus "200").orElse fun _ =>
      ((byStatus "201").orElse fun _ =>
        (rs.find? eligible2xx).map emit2xxSpec))).getD ⟨"unknown", zeroSchema, ""⟩

/-! ### SchemaConverter with synthetic naming (`internal/cli/run.go`
`schemaRefToIRWithNaming` / `buildNamedObjectDef`)

The Go functions mutate a shared model accumulator (`*out`) and a
`seen` name set; both are threaded here as explicit state.  Properties are
converted in association-list order with the resulting field list sorted by
name afterwards (the Go code sorts the key set first — identical for a
well-formed map, and no verified property depends on sibling hoisting
order). -/

/-- The builder state: the model accumulator and the `seen` name set. -/
structure NState where
  out : List IRModelDef
  seen : List String

/-- The synthetic-name scheme: `parentName`, `_` + Pascal(propertyName)
when in a property, `_Item` when in an array item. -/
def synthName (parentName propName : String) (isArrayItem : Bool) : String :=
  let base := if propName ≠ "" then parentName ++ "_" ++ toPascalGo propName else parentName
  if isArrayItem then base ++ "_Item" else base

mutual

/-- `schemaRefToIRWithNaming`: conversion with hoisting of nested anonymous
enums and objects into named models.  References resolve to a `Ref` by
name; an inline value dispatches to `convertValue`. -/
def schemaRefToIRWithNaming (sr : Option ORef) (parentName propName : String)
    (isArrayItem : Bool) (st : NState) : IRSchema × NState :=
  match sr with
  | none => (IRSchema.ofKind .unknown, st)
  | some (.mk refStr val) =>
    if refStr ≠ "" then (refToName refStr, st)
    else
      match val with
      | none => (IRSchema.ofKind .unknown, st)
      | some s => convertValue s parentName propName isArrayItem st
termination_by sizeOf sr

/-- The inline-value cases of `schemaRefToIRWithNaming`: compositions keep
the same naming context ("no naming for subs; inline" in the source);
enums always hoist under the synthetic name; primitives map directly;
arrays and objects dispatch to their branch helpers. -/
def convertValue (s : OSchema) (parentName propName : String)
    (isArrayItem : Bool) (st : NState) : IRSchema × NState :=
  match s with
  | .mk otype format nullable props req enumVals one anyL allL notS itemsO addlO =>
    if one.length > 0 then
      let r := convertRefList one parentName propName isArrayItem st
      (IRSchema.mkOneOf r.1 nullable, r.2)
    else if anyL.length > 0 then
      let r := convertRefList anyL parentName propName isArrayItem st
      (IRSchema.mkAnyOf r.1 nullable, r.2)
    else if allL.length > 0 then
      let r := convertRefList allL parentName propName isArrayItem st
      (IRSchema.mkAllOf r.1 nullable, r.2)
    else
      match notS with
      | some n =>
          let r := schemaRefToIRWithNaming (some n) parentName propName isArrayItem st
          (IRSchema.mkNot r.1 nullable, r.2)
      | none =>
        if enumVals.length > 0 then
          let baseName := synthName parentName propName isArrayItem
          let st1 :=
            if st.seen.contains baseName then st
            else
              { out := st.out ++ [⟨baseName,
                  IRSchema.mkEnum (enumVals.map GoVal.sprint) enumVals
                    (inferEnumBaseKind (.mk otype format nullable props req
                      enumVals one anyL allL none itemsO addlO)) nullable⟩],
                seen := st.seen ++ [baseName] }
          (IRSchema.mkRefN baseName nullable, st1)
        else
          match otype with
          | some .string => (IRSchema.mkString nullable format, st)
          | some .integer => (IRSchema.ofKindN .integer nullable, st)
          | some .number => (IRSchema.ofKindN .number nullable, st)
          | some .boolean => (IRSchema.ofKindN .boolean nullable, st)
          | some .array => convertArray itemsO parentName propName nullable st
          | some .object =>
              convertObject props req addlO parentName propName isArrayItem nullable st
          | none => (IRSchema.ofKindN .unknown nullable, st)
termination_by sizeOf s

/-- The array branch: an inline enum item recurses in array-item position
(hoisting under the `_Item` name); an inline object item with properties
hoists directly under the `_Item` name (this reads the resolved value even
for `$ref` items, as the source does); anything else recurses in array-item
position. -/
def convertArray (itemsO : Option ORef) (parentName propName : String)
    (nullable : Bool) (st : NState) : IRSchema × NState :=
  match itemsO with
  | some (.mk iRef iVal) =>
      match iVal with
      | some itemVal =>
          if itemVal.enumVals.length > 0 then
            let r := schemaRefToIRWithNaming (some (.mk iRef (some itemVal)))
              parentName propName true st
            (IRSchema.mkArray r.1 nullable, r.2)
          else if itemVal.otype = some OType.object ∧ itemVal.properties.length > 0 then
            let base :=
              if propName ≠ "" then parentName ++ "_" ++ toPascalGo propName
              else parentName
            let name := base ++ "_Item"
            let st1 :=
              if st.seen.contains name then st
              else
                let r := buildNamedObjectDef itemVal name st
                { out := r.2.out ++ [r.1], seen := r.2.seen ++ [name] }
            (IRSchema.mkArray (IRSchema.mkRef name) nullable, st1)
          else
            let r := schemaRefToIRWithNaming (some (.mk iRef (some itemVal)))
              parentName propName true st
            (IRSchema.mkArray r.1 nullable, r.2)
      | none =>
          let r := schemaRefToIRWithNaming (some (.mk iRef none))
            parentName propName true st
          (IRSchema.mkArray r.1 nullable, r.2)
  | none =>
      let r := schemaRefToIRWithNaming none parentName propName true st
      (IRSchema.mkArray r.1 nullable, r.2)
termination_by sizeOf itemsO + 1

/-- The object branch: convert the fields, then the typed
`additionalProperties`; a nested object (non-empty property context or
array-item position) registers itself under the synthetic name and returns
a `Ref`, a top-level object returns the `Object` node in place. -/
def convertObject (props : List (String × ORef)) (req : List String)
    (addlO : Option ORef) (parentName propName : String) (isArrayItem : Bool)
    (nullable : Bool) (st : NState) : IRSchema × NState :=
  let rf := convertObjFields props parentName propName isArrayItem req st
  let ra :=
    match addlO with
    | some a =>
        let r := schemaRefToIRWithNaming (some a) parentName
          "AdditionalProperties" false rf.2
        (some r.1, r.2)
    | none => (none, rf.2)
  if propName ≠ "" ∨ isArrayItem then
    let base := synthName parentName propName isArrayItem
    let st1 :=
      if ra.2.seen.contains base then ra.2
      else
        { out := ra.2.out ++ [⟨base,
            IRSchema.mkObject (sortFields rf.1) ra.1 nullable⟩],
          seen := ra.2.seen ++ [base] }
    (IRSchema.mkRef base, st1)
  else
    (IRSchema.mkObject (sortFields rf.1) ra.1 nullable, ra.2)
termination_by sizeOf props + sizeOf addlO + 1

/-- The property loop shared by the object branch and
`buildNamedObjectDef`: in a nested object context an inline object-typed
property with properties hoists directly via `buildNamedObjectDef`;
otherwise the property recurses with the property name as context. -/
def convertObjFields (props : List (String × ORef)) (parentName propName : String)
    (isArrayItem : Bool) (req : List String) (st : NState) : List IRField × NState :=
  match props with
  | [] => ([], st)
  | (n, .mk prRef prVal) :: rest =>
      let rf :=
        match prVal with
        | some v =>
            if (propName ≠ "" ∨ isArrayItem) ∧ v.otype = some OType.object ∧
                v.properties.length > 0 then
              let base :=
                if propName ≠ "" then parentName ++ "_" ++ toPascalGo propName
                else parentName
              let name := base ++ "_" ++ toPascalGo n
              let st1 :=
                if st.seen.contains name then st
                else
                  let r := buildNamedObjectDef v name st
                  { out := r.2.out ++ [r.1], seen := r.2.seen ++ [name] }
              (IRSchema.mkRef name, st1)
            else
              schemaRefToIRWithNaming (some (.mk prRef (some v))) parentName n false st
        | none => schemaRefToIRWithNaming (some (.mk prRef none)) parentName n false st
      let rRest := convertObjFields rest parentName propName isArrayItem req rf.2
      (IRField.mk n rf.1 (req.contains n) :: rRest.1, rRest.2)
termination_by sizeOf props

/-- The composition-member loop: members are converted left to right with
the same naming context, threading the state. -/
def convertRefList (members : List ORef) (parentName propName : String)
    (isArrayItem : Bool) (st : NState) : List IRSchema × NState :=
  match members with
  | [] => ([], st)
  | r :: rest =>
      let rc := schemaRefToIRWithNaming (some r) parentName propName isArrayItem st
      let rRest := convertRefList rest parentName propName isArrayItem rc.2
      (rc.1 :: rRest.1, rRest.2)
termination_by sizeOf members
decreasing_by
  all_goals simp_wf
  all_goals (cases rest <;> simp_arith)

/-- `buildNamedObjectDef`: build the named model for an inline object; its
property loop is the plain path of `convertObjFields` (empty property
context under the new name). -/
def buildNamedObjectDef (s : OSchema) (name : String) (st : NState) :
    IRModelDef × NState :=
  match s with
  | .mk _otype _format nullable props req _enumVals _one _anyL _allL _notS _itemsO addlO =>
    let rf := convertObjFields props name "" false req st
    let ra :=
      match addlO with
      | some a =>
          let r := schemaRefToIRWithNaming (some a) name "AdditionalProperties" false rf.2
          (some r.1, r.2)
      | none => (none, rf.2)
    (⟨name, IRSchema.mkObject (sortFields rf.1) ra.1 nullable⟩, ra.2)
termination_by sizeOf s

end

/-- The loop of `buildStructuredModels` over the sorted component names:
convert each component in naming mode, then append the component's own
model and mark its name seen. -/
def bsmLoop (schemas : List (String × ORef)) (names : List String) (st : NState) : NState :=
  match names with
  | [] => st
  | name :: rest =>
      let r := schemaRefToIRWithNaming (schemas.lookup name) name "" false st
      bsmLoop schemas rest
        { out := r.2.out ++ [⟨name, r.1⟩], seen := r.2.seen ++ [name] }

/-- `buildStructuredModels` from `internal/cli/run.go`: components are
processed in sorted-name order starting from an empty accumulator and an
empty `seen` set (a component's own name is only marked seen after its
conversion). -/
def buildStructuredModels (schemas : List (String × ORef)) : List IRModelDef :=
  (bsmLoop schemas (sortStrings (schemas.map Prod.fst)) ⟨[], []⟩).out

/-! ### Hoisting invariant predicates (claim C3) -/

mutual
/-- No `Object` or `Enum` node anywhere in this schema, the root included:
the shape of a fully-hoisted nested subtree (hoisted shapes were replaced
by `Ref` nodes). -/
def cleanAll : IRSchema → Bool
  | .mk kind _ _ props addl items _ _ _ _ one anyL allL ntM =>
    !(kind == .object) && !(kind == .enum)
    && cleanAllFields props && cleanAllOpt addl && cleanAllOpt items
    && cleanAllList one && cleanAllList anyL && cleanAllList allL
    && cleanAllOpt ntM

/-- `cleanAll` over an optional child. -/
def cleanAllOpt : Option IRSchema → Bool
  | some a => cleanAll a
  | none => true

/-- `cleanAll` over a member list. -/
def cleanAllList : List IRSchema → Bool
  | [] => true
  | c :: cs => cleanAll c && cleanAllList cs

/-- `cleanAll` over the types of a field list. -/
def cleanAllFields : List IRField → Bool
  | [] => true
  | .mk _ t _ :: fs => cleanAll t && cleanAllFields fs
end

mutual
/-- The registry invariant actually established by the converter: every
subtree reached through a property, array-item, or `additionalProperties`
edge is fully hoisted (`cleanAll`), while members of composition chains
starting at the root inherit the naming context — an anonymous object
member may stay in place (recursively satisfying the same shape), but an
`Enum` node never appears below the root even there. -/
def cleanTop : IRSchema → Bool
  | .mk _kind _ _ props addl items _ _ _ _ one anyL allL ntM =>
    cleanAllFields props && cleanAllOpt addl && cleanAllOpt items
    && cleanTopList one && cleanTopList anyL && cleanTopList allL
    && (match ntM with
        | some n => !(n.kind == .enum) && cleanTop n
        | none => true)

/-- `cleanTop` over composition members: no member is an `Enum` node, and
each recursively satisfies `cleanTop`. -/
def cleanTopList : List IRSchema → Bool
  | [] => true
  | c :: cs => !(c.kind == .enum) && cleanTop c && cleanTopList cs
end

/-- The claim as stated: no `Object`/`Enum` node strictly below the top
level, in any position — every direct child subtree is `cleanAll`. -/
def noNestedObjEnum : IRSchema → Bool
  | .mk _kind _ _ props addl items _ _ _ _ one anyL allL ntM =>
    cleanAllFields props && cleanAllOpt addl && cleanAllOpt items
    && cleanAllList one && cleanAllList anyL && cleanAllList allL
    && cleanAllOpt ntM

mutual
/-- Document well-formedness for the amended C3: every property key is
non-empty, recursively (also below `$ref` values, which the array
special case reads). -/
def oWfRef : ORef → Bool
  | .mk _ v =>
      match v with
      | some s => oWfS s
      | none => true

/-- Well-formedness of an inline schema value: non-empty property keys,
recursively in every child position. -/
def oWfS : OSchema → Bool
  | .mk _ _ _ props _ _ one anyL allL notS itemsO addlO =>
    oWfProps props
    && oWfList one && oWfList anyL && oWfList allL
    && oWfOpt notS && oWfOpt itemsO && oWfOpt addlO

/-- Well-formedness over a property list: keys non-empty, values
well-formed. -/
def oWfProps : List (String × ORef) → Bool
  | [] => true
  | (n, pr) :: rest => !(n == "") && oWfRef pr && oWfProps rest

/-- Well-formedness over a member list. -/
def oWfList : List ORef → Bool
  | [] => true
  | r :: rest => oWfRef r && oWfList rest

/-- Well-formedness over an optional child. -/
def oWfOpt : Option ORef → Bool
  | some r => oWfRef r
  | none => true
end

/-- The builder-state invariant: every accumulated model is `cleanTop`. -/
def stInv (st : NState) : Prop :=
  ∀ md ∈ st.out, cleanTop md.schema = true

/-- The conversion-result invariant: the state invariant is preserved, the
returned node is never an `Enum` node, in a nested context (non-empty
property context or array-item position) it is fully hoisted, and it always
satisfies the registry shape. -/
def conc (q : String) (i : Bool) (r : IRSchema × NState) : Prop :=
  stInv r.2 ∧ r.1.kind ≠ .enum ∧
  ((q ≠ "" ∨ i = true) → cleanAll r.1 = true) ∧ cleanTop r.1 = true

/-! ### Sample inputs used by concrete counterexamples and witnesses -/

/-- A declared path parameter named `id`. -/
def paramId : IRParam :=
  ⟨"id", true, IRSchema.ofKind .str, ""⟩

/-- A declared path parameter named `slug`. -/
def paramSlug : IRParam :=
  ⟨"slug", true, IRSchema.ofKind .str, ""⟩

/-- An empty response value (zero `ir.IRResponse`). -/
def emptyResponse : IRResponse :=
  ⟨"", IRSchema.ofKind .unknown, ""⟩

/-- An operation whose path template mentions `\x7bid\x7d` twice. -/
def opDupBraces : IROperation :=
  ⟨"getThing", "GET", "/a/\x7bid\x7d/b/\x7bid\x7d", "misc", ["misc"],
    [paramId], [], none, emptyResponse⟩

/-- An operation with path `/v1/things/\x7bid\x7d/sub/\x7bslug\x7d` and an
extra declared parameter `unused` that the template never mentions. -/
def opTwoParams : IROperation :=
  ⟨"getSub", "GET", "/v1/things/\x7bid\x7d/sub/\x7bslug\x7d", "misc", ["misc"],
    [paramId, paramSlug, ⟨"unused", true, IRSchema.ofKind .str, ""⟩],
    [], none, emptyResponse⟩

/-- A request body declaring only `text/plain` and `text/csv` (no
structured/form/multipart media type), in one Go map iteration order. -/
def rbPlainCsv : OReqBody :=
  ⟨false, [("text/plain", ⟨none⟩), ("text/csv", ⟨none⟩)]⟩

/-- The same request-body map in the other iteration order. -/
def rbCsvPlain : OReqBody :=
  ⟨false, [("text/csv", ⟨none⟩), ("text/plain", ⟨none⟩)]⟩

/-- Operations carrying the two iteration orders of the same request-body
content map. -/
def opReqA : OOperation := ⟨some rbPlainCsv, none⟩

def opReqB : OOperation := ⟨some rbCsvPlain, none⟩

/-- A `202` response with a JSON body described as `a`. -/
def rv202 : OResp := ⟨some "a", [("application/json", ⟨none⟩)]⟩

/-- A `203` response with a JSON body described as `b`. -/
def rv203 : OResp := ⟨some "b", [("application/json", ⟨none⟩)]⟩

/-- Operations carrying the two iteration orders of the same responses map
`\x7b202, 203\x7d` (no `200`/`201` present). -/
def opRespA : OOperation := ⟨none, some [("202", some rv202), ("203", some rv203)]⟩

def opRespB : OOperation := ⟨none, some [("203", some rv203), ("202", some rv202)]⟩

/-- A component schema `Color` that is itself a top-level string enum. -/
def colorEnumComponent : ORef :=
  .mk "" (some (.mk (some .string) "" false [] []
    [.vstr "red", .vstr "green"] [] [] [] none none none))

/-- An inline (anonymous) object schema `\x7ba: string\x7d`. -/
def inlineObjRef : ORef :=
  .mk "" (some (.mk (some .object) "" false
    [("a", .mk "" (some (.mk (some .string) "" false [] [] [] [] [] [] none none none)))]
    [] [] [] [] [] none none none))

/-- A component `Foo` that is a top-level `oneOf` with one inline object
member. -/
def fooOneOfComponent : ORef :=
  .mk "" (some (.mk none "" false [] [] [] [inlineObjRef] [] [] none none none))

/-- The IR value the converter produces for `Foo`'s schema. -/
def fooOneOfIR : IRSchema :=
  IRSchema.mkOneOf
    [IRSchema.mkObject [IRField.mk "a" (IRSchema.mkString false "") false] none false]
    false

/-- A `Color` model of `Enum` kind. -/
def enumColorDef : IRModelDef :=
  ⟨"Color", IRSchema.mk .enum false "" [] none none ["red", "green"]
    [.vstr "red", .vstr "green"] .str "" [] [] [] none⟩

/-- A colliding `Color` model of `Object` kind. -/
def objColorDef : IRModelDef :=
  ⟨"Color", IRSchema.ofKind .object⟩

/-- An unrelated model named `Other`. -/
def otherDef : IRModelDef :=
  ⟨"Other", IRSchema.ofKind .str⟩

/-- A minimal well-formed component registry entry: a plain string schema
named by its key. -/
def barComponent : ORef :=
  .mk "" (some (.mk (some .string) "" false [] [] [] [] [] [] none none none))

/-! ### ReachabilityPruner (`filterUnusedModelDefs`, TypeScript generator) -/

/-- The mutable collection state of `filterUnusedModelDefs`: the
`referenced` and `visited` name sets (Go `map[string]bool`, modelled as
lists read through membership). -/
structure CRState where
  referenced : List String
  visited : List String

/-- `modelDefMap`: a Go map filled by inserting every model definition
under its name, so on duplicate names the last entry wins. -/
def mdLookup (all : List IRModelDef) (n : String) : Option IRModelDef :=
  all.reverse.find? (fun md => md.name == n)

/-- `m[k] = true` on a set-valued Go map. -/
def markName (n : String) (l : List String) : List String :=
  if n ∈ l then l else n :: l

/-- The names of all registry models. -/
def allNames (all : List IRModelDef) : List String := all.map IRModelDef.name

/-- How many of `names` are not yet visited; the part of the termination
measure that shrinks on a registry jump. -/
def unvisitedCount (names visited : List String) : Nat :=
  (names.filter (fun n => decide (n ∉ visited))).length

/-- The largest model-schema size in the registry, bounding the schema the
collector lands on after a registry jump. -/
noncomputable def maxSchemaSize : List IRModelDef → Nat
  | [] => 0
  | md :: rest => max (sizeOf md.schema) (maxSchemaSize rest)

/-- Termination measure of the reference collector: a registry jump
strictly shrinks the unvisited count, structural descent shrinks the
schema while never shrinking the visited set. -/
noncomputable def crMeasure (all : List IRModelDef) (visited : List String) (sz : Nat) : Nat :=
  unvisitedCount (allNames all) visited * (1 + maxSchemaSize all) + sz

theorem length_filter_le_of_imp {p q : String → Bool}
    (h : ∀ a, p a = true → q a = true) (l : List String) :
    (l.filter p).length ≤ (l.filter q).length := by
  induction l with
  | nil => simp
  | cons a t ih =>
      cases hp : p a
      · cases hq : q a <;> simp [List.filter, hp, hq] <;> omega
      · have hq := h a hp
        simp [List.filter, hp, hq]
        omega

theorem unvisitedCount_mono {v v2 : List String} (h : v ⊆ v2) (names : List String) :
    unvisitedCount names v2 ≤ unvisitedCount names v := by
  apply length_filter_le_of_imp
  intro a ha
  simp only [decide_eq_true_eq] at ha ⊢
  exact fun hm => ha (h hm)

theorem unvisitedCount_cons_lt {names v : List String} {n : String}
    (hn : n ∈ names) (hv : n ∉ v) :
    unvisitedCount names (n :: v) < unvisitedCount names v := by
  induction names with
  | nil => cases hn
  | cons a t ih =>
      unfold unvisitedCount at ih ⊢
      rw [List.filter_cons, List.filter_cons]
      by_cases han : a = n
      · subst han
        have d1 : (decide (a ∉ a :: v)) = false := by simp
        have d2 : (decide (a ∉ v)) = true := by simpa using hv
        rw [d1, d2]
        have h2 : (t.filter (fun m => decide (m ∉ a :: v))).length
            ≤ (t.filter (fun m => decide (m ∉ v))).length := by
          apply length_filter_le_of_imp
          intro m hm
          simp only [decide_eq_true_eq, List.mem_cons] at hm ⊢
          exact fun hmv => hm (Or.inr hmv)
        simp only [Bool.false_eq_true, if_false, if_true, List.length_cons]
        omega
      · have hn2 : n ∈ t := by
          rcases List.mem_cons.mp hn with h | h
          · exact absurd h.symm han
          · exact h
        have hlt := ih hn2
        have heq : (decide (a ∉ n :: v)) = (decide (a ∉ v)) := by
          simp only [List.mem_cons]
          by_cases hav : a ∈ v
          · simp [hav]
          · simp [hav, han]
        rw [heq]
        by_cases hav : a ∈ v
        · have d : (decide (a ∉ v)) = false := by simpa using hav
          rw [d]
          simpa only [Bool.false_eq_true, if_false] using hlt
        · have d : (decide (a ∉ v)) = true := by simpa using hav
          rw [d]
          simp only [eq_self_iff_true, if_true, List.length_cons]
          omega

theorem sizeOf_schema_le_max {all : List IRModelDef} {md : IRModelDef}
    (h : md ∈ all) : sizeOf md.schema ≤ maxSchemaSize all := by
  induction all with
  | nil => cases h
  | cons a t ih =>
      rcases List.mem_cons.mp h with h | h
      · subst h
        exact le_max_left _ _
      · exact le_trans (ih h) (le_max_right _ _)

theorem mdLookup_mem {all : List IRModelDef} {n : String} {md : IRModelDef}
    (h : mdLookup all n = some md) : md ∈ all ∧ md.name = n := by
  unfold mdLookup at h
  have hm := List.mem_reverse.mp (List.mem_of_find?_eq_some h)
  have hp := List.find?_some h
  exact ⟨hm, by simpa using hp⟩

theorem crMeasure_jump {u u2 S s2 sz : Nat} (hu : u2 < u) (hs : s2 ≤ S) :
    u2 * (1 + S) + s2 < u * (1 + S) + sz := by
  have h1 : (u2 + 1) * (1 + S) = u2 * (1 + S) + (1 + S) := by ring
  have h2 : (u2 + 1) * (1 + S) ≤ u * (1 + S) := Nat.mul_le_mul_right _ hu
  omega

theorem crMeasure_child {u u2 S s2 sz : Nat} (hu : u2 ≤ u) (hs : s2 < sz) :
    u2 * (1 + S) + s2 < u * (1 + S) + sz := by
  have h2 : u2 * (1 + S) ≤ u * (1 + S) := Nat.mul_le_mul_right _ hu
  omega


mutual
/-- The `Ref`-node handling at the top of `collectRefs`: when the node is
a non-empty `Ref`, mark the target as referenced; when the target is
unvisited, mark it visited and expand its registry model if any. -/
def collectRefHead (all : List IRModelDef) (kind : IRKind) (ref : String) (st : CRState) :
    {r : CRState // st.visited ⊆ r.visited} :=
  if kind = IRKind.ref ∧ ref ≠ "" then
    if hv : ref ∈ st.visited then
      ⟨⟨markName ref st.referenced, st.visited⟩, fun _ ha => ha⟩
    else
      match hmd : mdLookup all ref with
      | some md =>
          let r := collectRefs all md.schema
            ⟨markName ref st.referenced, ref :: st.visited⟩
          ⟨r.1, fun _ ha => r.2 (List.mem_cons_of_mem _ ha)⟩
      | none =>
          ⟨⟨markName ref st.referenced, ref :: st.visited⟩,
            fun _ ha => List.mem_cons_of_mem _ ha⟩
  else ⟨st, fun _ ha => ha⟩
termination_by crMeasure all st.visited 0
decreasing_by
  · have h := mdLookup_mem hmd
    have h2 := List.mem_map_of_mem IRModelDef.name h.1
    rw [h.2] at h2
    exact crMeasure_jump (unvisitedCount_cons_lt h2 hv) (sizeOf_schema_le_max h.1)

/-- `collectRefs` from `filterUnusedModelDefs`: handle the node's own
`Ref` target, then descend into every child schema position (items,
additionalProperties, oneOf, anyOf, allOf, not, properties) threading the
state left to right.  The result carries the fact that the visited set
only grows, which the termination measure needs. -/
def collectRefs (all : List IRModelDef) (s : IRSchema) (st : CRState) :
    {r : CRState // st.visited ⊆ r.visited} :=
  match s with
  | .mk kind _ _ props addl items _ _ _ ref one anyL allL ntM =>
    let st1 := collectRefHead all kind ref st
    let r2 := collectRefsOpt all items st1.1
    let r3 := collectRefsOpt all addl r2.1
    let r4 := collectRefsList all one r3.1
    let r5 := collectRefsList all anyL r4.1
    let r6 := collectRefsList all allL r5.1
    let r7 := collectRefsOpt all ntM r6.1
    let r8 := collectRefsFields all props r7.1
    ⟨r8.1, fun _ ha =>
      r8.2 (r7.2 (r6.2 (r5.2 (r4.2 (r3.2 (r2.2 (st1.2 ha)))))))⟩
termination_by crMeasure all st.visited (sizeOf s)
decreasing_by
  · exact crMeasure_child (le_refl _) (by simp_arith)
  · exact crMeasure_child (unvisitedCount_mono st1.2 _) (by simp_arith)
  · exact crMeasure_child (unvisitedCount_mono (st1.2.trans r2.2) _) (by simp_arith)
  · exact crMeasure_child (unvisitedCount_mono (st1.2.trans (r2.2.trans r3.2)) _) (by simp_arith)
  · exact crMeasure_child
      (unvisitedCount_mono (st1.2.trans (r2.2.trans (r3.2.trans r4.2))) _) (by simp_arith)
  · exact crMeasure_child
      (unvisitedCount_mono (st1.2.trans (r2.2.trans (r3.2.trans (r4.2.trans r5.2)))) _)
      (by simp_arith)
  · exact crMeasure_child
      (unvisitedCount_mono
        (st1.2.trans (r2.2.trans (r3.2.trans (r4.2.trans (r5.2.trans r6.2))))) _)
      (by simp_arith)
  · exact crMeasure_child
      (unvisitedCount_mono
        (st1.2.trans (r2.2.trans (r3.2.trans (r4.2.trans (r5.2.trans (r6.2.trans r7.2)))))) _)
      (by simp_arith)

/-- The `if schema.X != nil` guards around child traversal. -/
def collectRefsOpt (all : List IRModelDef) (o : Option IRSchema) (st : CRState) :
    {r : CRState // st.visited ⊆ r.visited} :=
  match o with
  | some a => collectRefs all a st
  | none => ⟨st, fun _ ha => ha⟩
termination_by crMeasure all st.visited (sizeOf o)
decreasing_by
  · exact crMeasure_child (le_refl _) (by simp_arith)

/-- The `for _, sub := range` loops over composition members. -/
def collectRefsList (all : List IRModelDef) (l : List IRSchema) (st : CRState) :
    {r : CRState // st.visited ⊆ r.visited} :=
  match l with
  | [] => ⟨st, fun _ ha => ha⟩
  | c :: cs =>
      let r1 := collectRefs all c st
      let r2 := collectRefsList all cs r1.1
      ⟨r2.1, fun _ ha => r2.2 (r1.2 ha)⟩
termination_by crMeasure all st.visited (sizeOf l)
decreasing_by
  · exact crMeasure_child (le_refl _) (by simp_arith)
  · exact crMeasure_child (unvisitedCount_mono r1.2 _) (by simp_arith)

/-- The `for _, field := range schema.Properties` loop. -/
def collectRefsFields (all : List IRModelDef) (fs : List IRField) (st : CRState) :
    {r : CRState // st.visited ⊆ r.visited} :=
  match fs with
  | [] => ⟨st, fun _ ha => ha⟩
  | .mk _ t _ :: rest =>
      let r1 := collectRefs all t st
      let r2 := collectRefsFields all rest r1.1
      ⟨r2.1, fun _ ha => r2.2 (r1.2 ha)⟩
termination_by crMeasure all st.visited (sizeOf fs)
decreasing_by
  · exact crMeasure_child (le_refl _) (by simp_arith)
  · exact crMeasure_child (unvisitedCount_mono r1.2 _) (by simp_arith)
end


/-- The root schemas of the filtered IR, in the order the Go loop feeds
them to `collectRefs`: per service, per operation: path-parameter schemas,
query-parameter schemas, the request-body schema when present, then the
response schema. -/
def opRootSchemas (irv : IR) : List IRSchema :=
  (irv.services.map (fun svc =>
    (svc.operations.map (fun op =>
      op.pathParams.map IRParam.schema ++ op.queryParams.map IRParam.schema
      ++ (match op.requestBody with
          | some rb => [rb.schema]
          | none => [])
      ++ [op.response.schema])).flatten)).flatten

/-- The collection loop of `filterUnusedModelDefs` over the root schemas. -/
def collectAllRefs (all : List IRModelDef) (roots : List IRSchema) (st : CRState) : CRState :=
  match roots with
  | [] => st
  | s :: rest => collectAllRefs all rest (collectRefs all s st).1

/-- `filterUnusedModelDefs` from the TypeScript generator: collect every
name referenced from the filtered operations (transitively through the
registry, guarded by the visited set) starting from empty maps, then keep
exactly the models whose name was referenced, in registry order. -/
def filterUnusedModelDefs (irv : IR) (all : List IRModelDef) : List IRModelDef :=
  let final := collectAllRefs all (opRootSchemas irv) ⟨[], []⟩
  all.filter (fun md => decide (md.name ∈ final.referenced))

mutual
/-- The `Ref` targets a single schema tree mentions directly (no registry
expansion), in the traversal order of `collectRefs`: the node's own `Ref`
target when its kind is `Ref` and the target is non-empty, then items,
additionalProperties, oneOf, anyOf, allOf, not, properties. -/
def refNames : IRSchema → List String
  | .mk kind _ _ props addl items _ _ _ ref one anyL allL ntM =>
      (if kind = IRKind.ref ∧ ref ≠ "" then [ref] else [])
      ++ refNamesOpt items ++ refNamesOpt addl ++ refNamesList one
      ++ refNamesList anyL ++ refNamesList allL ++ refNamesOpt ntM
      ++ refNamesFields props

/-- `refNames` through an optional child. -/
def refNamesOpt : Option IRSchema → List String
  | some a => refNames a
  | none => []

/-- `refNames` over a member list. -/
def refNamesList : List IRSchema → List String
  | [] => []
  | c :: cs => refNames c ++ refNamesList cs

/-- `refNames` over the types of a field list. -/
def refNamesFields : List IRField → List String
  | [] => []
  | .mk _ t _ :: rest => refNames t ++ refNamesFields rest
end

/-- Reachability of a model name through `Ref` edges: from the root
schemas directly, or through the schema of a registry model whose name is
already reachable (registry lookup: last entry wins). -/
inductive Reach (all : List IRModelDef) (roots : List IRSchema) : String → Prop where
  | root (s : IRSchema) (n : String) : s ∈ roots → n ∈ refNames s → Reach all roots n
  | step (m n : String) (md : IRModelDef) : Reach all roots m →
      mdLookup all m = some md → n ∈ refNames md.schema → Reach all roots n

/-- The collector state is expansion-closed outside the pending set `A`:
every visited name outside `A` that resolves in the registry has all
direct `Ref` targets of its model already referenced. -/
def closedE (all : List IRModelDef) (A : List String) (st : CRState) : Prop :=
  ∀ n ∈ st.visited, n ∉ A → ∀ md, mdLookup all n = some md →
    ∀ x ∈ refNames md.schema, x ∈ st.referenced

/-- Every referenced and every visited name is reachable. -/
def crSound (all : List IRModelDef) (roots : List IRSchema) (st : CRState) : Prop :=
  (∀ n ∈ st.referenced, Reach all roots n) ∧ (∀ n ∈ st.visited, Reach all roots n)

/-- The collector postcondition for a call whose argument mentions the
targets `nls` directly: the referenced set grows, afterwards contains
`nls`, closedness outside any pending set is preserved, `referenced ⊆
visited` is preserved, and soundness is preserved when the direct targets
are reachable. -/
def crPost (all : List IRModelDef) (roots : List IRSchema) (nls : List String)
    (st st2 : CRState) : Prop :=
  st.referenced ⊆ st2.referenced ∧
  (∀ n ∈ nls, n ∈ st2.referenced) ∧
  (∀ A, closedE all A st → closedE all A st2) ∧
  (st.referenced ⊆ st.visited → st2.referenced ⊆ st2.visited) ∧
  ((∀ n ∈ nls, Reach all roots n) → crSound all roots st → crSound all roots st2)

/-! ## Theorems -/

/-- Helper: a successful `pickForName` returns an entry carrying the
requested name. -/
theorem pickForName_name {models : List IRModelDef} {n : String} {e : IRModelDef}
    (h : pickForName models n = some e) : e.name = n := by
  unfold pickForName at h
  simp only [] at h
  cases hf : (models.filter fun m => m.name = n).find?
      (fun m => m.schema.kind = IRKind.enum) with
  | some e' =>
      rw [hf] at h
      cases h
      have hmem := List.mem_of_find?_eq_some hf
      have := List.mem_filter.mp hmem
      simpa using this.2
  | none =>
      rw [hf] at h
      cases hentries : models.filter fun m => m.name = n with
      | nil => rw [hentries] at h; simp at h
      | cons x xs =>
          rw [hentries] at h
          simp only [List.head?] at h
          cases h
          have hmem : e ∈ models.filter fun m => m.name = n := by
            rw [hentries]; exact List.mem_cons_self _ _
          have := List.mem_filter.mp hmem
          simpa using this.2

/-- Helper: keys absent from the key list contribute no entry named `n`. -/
theorem filter_filterMap_pick_of_not_mem (models : List IRModelDef) (n : String) :
    ∀ L : List String, n ∉ L →
      ((L.filterMap (pickForName models)).filter fun m => m.name = n) = [] := by
  intro L
  induction L with
  | nil => intro _; rfl
  | cons m L ih =>
      intro hn
      have hm : m ≠ n := fun he => hn (he ▸ List.mem_cons_self _ _)
      have hL : n ∉ L := fun he => hn (List.mem_cons_of_mem _ he)
      rw [List.filterMap_cons]
      cases hp : pickForName models m with
      | none => exact ih hL
      | some e =>
          have hen : e.name = m := pickForName_name hp
          rw [List.filter_cons]
          have : (decide (e.name = n)) = false := by
            simp [hen, hm]
          rw [this]
          simp only [Bool.false_eq_true, if_false]
          exact ih hL

/-- Helper: with distinct keys, the single entry for key `n` is the picked
one. -/
theorem filter_filterMap_pick_of_mem (models : List IRModelDef) (n : String)
    (e : IRModelDef) (he : pickForName models n = some e) :
    ∀ L : List String, L.Nodup → n ∈ L →
      ((L.filterMap (pickForName models)).filter fun m => m.name = n) = [e] := by
  intro L
  induction L with
  | nil => intro _ h; cases h
  | cons m L ih =>
      intro hnd hn
      have hnd' := List.nodup_cons.mp hnd
      rw [List.filterMap_cons]
      by_cases hm : m = n
      · subst hm
        rw [he, List.filter_cons]
        have : (decide (e.name = m)) = true := by
          simp [pickForName_name he]
        rw [this]
        simp only [if_true]
        rw [filter_filterMap_pick_of_not_mem models m L hnd'.1]
      · have hnL : n ∈ L := by
          cases List.mem_cons.mp hn with
          | inl h => exact absurd h.symm hm
          | inr h => exact h
        cases hp : pickForName models m with
        | none => exact ih hnd'.2 hnL
        | some e' =>
            have hen : e'.name = m := pickForName_name hp
            rw [List.filter_cons]
            have : (decide (e'.name = n)) = false := by
              simp [hen, hm]
            rw [this]
            simp only [Bool.false_eq_true, if_false]
            exact ih hnd'.2 hnL

/-- C7: if the accumulated model list contains exactly two entries under a
name, one of `Enum` kind and one not, deduplication yields exactly one
entry under that name — the `Enum`-kind one. -/
theorem dedupe_enum_precedence (models : List IRModelDef) (n : String)
    (a b : IRModelDef)
    (hf : models.filter (fun m => m.name = n) = [a, b] ∨
          models.filter (fun m => m.name = n) = [b, a])
    (ha : a.schema.kind = IRKind.enum) (hb : b.schema.kind ≠ IRKind.enum) :
    ((dedupeModels models).filter fun m => m.name = n) = [a] := by
  have hamem : a ∈ models.filter fun m => m.name = n := by
    cases hf with
    | inl h => rw [h]; simp
    | inr h => rw [h]; simp
  have haname : a.name = n := by
    have := List.mem_filter.mp hamem
    simpa using this.2
  have hpick : pickForName models n = some a := by
    unfold pickForName
    simp only []
    cases hf with
    | inl h =>
        rw [h, List.find?_cons_of_pos]
        simp [ha]
    | inr h =>
        rw [h, List.find?_cons_of_neg, List.find?_cons_of_pos]
        · simp [ha]
        · simp [hb]
  have hnmem : n ∈ (models.map fun m => m.name).dedup := by
    rw [List.mem_dedup]
    exact List.mem_map.mpr ⟨a, (List.mem_filter.mp hamem).1, haname⟩
  exact filter_filterMap_pick_of_mem models n a hpick _
    (List.nodup_dedup _) hnmem

/-- C7 witness: in `[objColorDef, otherDef, enumColorDef]` the two `Color`
entries collapse to the enum one. -/
theorem dedupe_enum_precedence_witness :
    ((dedupeModels [objColorDef, otherDef, enumColorDef]).filter
        fun m => m.name = "Color") = [enumColorDef] := by
  refine dedupe_enum_precedence _ "Color" enumColorDef objColorDef ?_ rfl ?_
  · right; rfl
  · simp [objColorDef, IRSchema.ofKind, IRModelDef.schema, IRSchema.kind]

/-- C8 counterexample: the two word-splitting code paths do not agree on
the input `"XMLHttpRequest"` — the regex-based `SplitWords` produces the
two-word split `["XMLHttp", "Request"]` while the rune-based
`SplitCamelCase` produces `["XML", "Http", "Request"]`, refuting the claim
that all word-splitting code paths produce the same word list. -/
theorem splitWords_ne_splitCamelCase_on_XMLHttpRequest :
    splitWords "XMLHttpRequest" ≠ splitCamelCase "XMLHttpRequest" := by
  decide

/-- C8 (amended): the two splitters are individually deterministic but
disagree: `SplitCamelCase "XMLHttpRequest"` is the three-word acronym split
`["XML", "Http", "Request"]`, while `SplitWords "XMLHttpRequest"` is the
two-word split `["XMLHttp", "Request"]` (its regex only breaks at a
lower-to-upper boundary, so the acronym run is kept together). -/
theorem splitCamelCase_and_splitWords_on_XMLHttpRequest :
    splitCamelCase "XMLHttpRequest" = ["XML", "Http", "Request"] ∧
    splitWords "XMLHttpRequest" = ["XMLHttp", "Request"] := by
  constructor <;> decide

/-- C9: for every nullable IR schema node, the TypeScript projection is
the base projection with `" | null"` appended unless the base projection is
already the `null` literal type (no double wrap), and the Go projection is
the base projection behind a `*` pointer (Go's projection vocabulary has no
null literal type, so the exception is vacuous there). -/
theorem nullable_projection (s : IRSchema) (h : s.nullable = true) :
    schemaToTSType s =
      (if tsBaseType s = "null" then tsBaseType s else tsBaseType s ++ " | null") ∧
    schemaToGoTypeImpl s = "*" ++ goBaseType s := by
  constructor
  · rw [schemaToTSType, h]
    by_cases hnull : tsBaseType s = "null" <;> simp [hnull]
  · rw [schemaToGoTypeImpl, h]
    simp

/-- C9 witness: a nullable string node projects to `"string | null"`, and a
nullable null node stays `"null"` (not `"null | null"`). -/
theorem nullable_projection_witness :
    schemaToTSType (IRSchema.mk .str true "" [] none none [] [] .unknown "" [] [] [] none)
      = "string | null" ∧
    schemaToTSType (IRSchema.mk .null true "" [] none none [] [] .unknown "" [] [] [] none)
      = "null" ∧
    schemaToGoTypeImpl (IRSchema.mk .str true "" [] none none [] [] .unknown "" [] [] [] none)
      = "*string" := by
  have h1 := nullable_projection
    (IRSchema.mk .str true "" [] none none [] [] .unknown "" [] [] [] none) rfl
  have h2 := nullable_projection
    (IRSchema.mk .null true "" [] none none [] [] .unknown "" [] [] [] none) rfl
  refine ⟨?_, ?_, ?_⟩
  · rw [h1.1]
    simp [tsBaseType]
  · rw [h2.1]
    simp [tsBaseType]
  · rw [h2.2] at h2
    rw [h1.2]
    simp [goBaseType]

/-- C4: an operation passes the tag filter iff it passes inclusion (the
include list is empty, or some original tag matches some include pattern)
and no original tag matches any exclude pattern — exclusion dominates
inclusion. -/
theorem shouldIncludeOperation_spec (ts : List String)
    (includePats excludePats : List (String → Bool)) :
    shouldIncludeOperation ts includePats excludePats = true ↔
      ((includePats = [] ∨ ∃ t ∈ ts, ∃ r ∈ includePats, r t = true) ∧
        ¬ ∃ t ∈ ts, ∃ r ∈ excludePats, r t = true) := by
  by_cases hinc : includePats.isEmpty
  · have : includePats = [] := by simpa [List.isEmpty_iff] using hinc
    subst this
    simp [shouldIncludeOperation, List.any_eq_true]
  · have : includePats ≠ [] := by simpa [List.isEmpty_iff] using hinc
    simp [shouldIncludeOperation, hinc, List.any_eq_true, this]

/-- C10 counterexample: when a parameter name occurs twice in the path
template, `orderPathParams` returns the parameter once per occurrence, so
the returned list is not "exactly those declared path parameters ordered by
first appearance" (which would list the parameter once). -/
theorem orderPathParams_duplicate_brace :
    orderPathParams opDupBraces = [paramId, paramId] ∧
    ([paramId, paramId] : List IRParam) ≠ [paramId] := by
  constructor
  · rfl
  · simp

/-- C10 (amended): the returned list contains one entry per occurrence of a
declared parameter's name in the path template, ordered by occurrence (for
a template without repeated names this is exactly the claimed
first-appearance ordering); every returned entry is a declared path
parameter, a declared parameter whose name never occurs in the template is
omitted, and — given distinct declared names — every declared parameter
whose name occurs in the template is returned. -/
theorem orderPathParams_spec (op : IROperation)
    (h : (op.pathParams.map IRParam.name).Nodup) :
    (orderPathParams op).map IRParam.name
        = (scanBraces op.path.toList).filter (fun n => n ∈ op.pathParams.map IRParam.name)
    ∧ (∀ p ∈ orderPathParams op, p ∈ op.pathParams)
    ∧ (∀ p ∈ op.pathParams, p.name ∉ scanBraces op.path.toList → p ∉ orderPathParams op)
    ∧ (∀ p ∈ op.pathParams, p.name ∈ scanBraces op.path.toList → p ∈ orderPathParams op) := by
  have hfind : ∀ (n : String) (q : IRParam),
      (op.pathParams.reverse.find? fun p => p.name = n) = some q →
      q ∈ op.pathParams ∧ q.name = n := by
    intro n q hq
    refine ⟨List.mem_reverse.mp (List.mem_of_find?_eq_some hq), ?_⟩
    have := List.find?_some hq
    simpa using this
  refine ⟨?_, ?_, ?_, ?_⟩
  · unfold orderPathParams
    generalize scanBraces op.path.toList = L
    induction L with
    | nil => simp
    | cons n L ih =>
        cases hq : (op.pathParams.reverse.find? fun p => p.name = n) with
        | none =>
            have hnot : n ∉ op.pathParams.map IRParam.name := by
              intro hmem
              obtain ⟨p, hp, hpn⟩ := List.mem_map.mp hmem
              have : (op.pathParams.reverse.find? fun p => p.name = n).isSome := by
                rw [List.find?_isSome]
                exact ⟨p, List.mem_reverse.mpr hp, by simp [hpn]⟩
              rw [hq] at this
              simp at this
            rw [List.filterMap_cons, hq, List.filter_cons]
            have hd : (decide (n ∈ op.pathParams.map IRParam.name)) = false := by
              simpa using hnot
            rw [hd]
            simpa using ih
        | some q =>
            obtain ⟨hqmem, hqn⟩ := hfind n q hq
            have hin : n ∈ op.pathParams.map IRParam.name :=
              List.mem_map.mpr ⟨q, hqmem, hqn⟩
            rw [List.filterMap_cons, hq, List.filter_cons]
            have hd : (decide (n ∈ op.pathParams.map IRParam.name)) = true := by
              simpa using hin
            rw [hd]
            simp only [if_true, List.map_cons, hqn, ih]
  · intro p hp
    obtain ⟨n, _, hfp⟩ := List.mem_filterMap.mp hp
    exact (hfind n p hfp).1
  · intro p _ hnot hpmem
    obtain ⟨n, hnL, hfp⟩ := List.mem_filterMap.mp hpmem
    have := (hfind n p hfp).2
    exact hnot (this ▸ hnL)
  · intro p hp hocc
    have hsome : (op.pathParams.reverse.find? fun q => q.name = p.name).isSome := by
      rw [List.find?_isSome]
      exact ⟨p, List.mem_reverse.mpr hp, by simp⟩
    obtain ⟨q, hq⟩ := Option.isSome_iff_exists.mp hsome
    obtain ⟨hqmem, hqn⟩ := hfind _ _ hq
    have hpq : q = p := List.inj_on_of_nodup_map h hqmem hp hqn
    exact List.mem_filterMap.mpr ⟨p.name, hocc, hpq ▸ hq⟩

/-- C10 witness: on `/v1/things/\x7bid\x7d/sub/\x7bslug\x7d` with declared
parameters `id`, `slug` and `unused`, the ordered list is `[id, slug]` —
template order, with `unused` omitted. -/
theorem orderPathParams_spec_witness :
    (orderPathParams opTwoParams).map IRParam.name
      = (scanBraces opTwoParams.path.toList).filter
          (fun n => n ∈ opTwoParams.pathParams.map IRParam.name) ∧
    (orderPathParams opTwoParams).map IRParam.name = ["id", "slug"] := by
  refine ⟨(orderPathParams_spec opTwoParams (by decide)).1, ?_⟩
  rfl

/-- C1: the fallback paths of request-body and response selection read the
first entry of a Go map iteration, so two runs that iterate the same maps
in different orders produce different IR — refuting run-to-run determinism.
The two content lists (and the two responses lists) are permutations of
each other, i.e. the same map; the extraction results differ. -/
theorem extract_depends_on_map_iteration_order :
    rbPlainCsv.content.Perm rbCsvPlain.content ∧
    extractRequestBody opReqA ≠ extractRequestBody opReqB ∧
    [("202", some rv202), ("203", some rv203)].Perm
      [("203", some rv203), ("202", some rv202)] ∧
    extractResponse opRespA ≠ extractResponse opRespB := by
  have hA : extractRequestBody opReqA
      = some ⟨"text/plain", "", false, schemaRefToIR none⟩ := rfl
  have hB : extractRequestBody opReqB
      = some ⟨"text/csv", "", false, schemaRefToIR none⟩ := rfl
  have hRA : extractResponse opRespA = ⟨"", schemaRefToIR none, "a"⟩ := rfl
  have hRB : extractResponse opRespB = ⟨"", schemaRefToIR none, "b"⟩ := rfl
  refine ⟨List.Perm.swap _ _ _, ?_, List.Perm.swap _ _ _, ?_⟩
  · rw [hA, hB]
    intro h
    simp [IRRequestBody.mk.injEq] at h
  · rw [hRA, hRB]
    intro h
    simp [IRResponse.mk.injEq] at h

/-- C6 counterexample: with responses `\x7b202 (no content)\x7d` and no
`200`/`201`, the code returns the `unknown` marker, not the explicit
no-content response the claimed per-status precedence would give `202`:
only `204` yields no-content in the `2xx` fallback. -/
theorem extractResponse_contentless_202 :
    extractResponse (⟨none, some [("202", some ⟨none, []⟩)]⟩ : OOperation)
      = ⟨"unknown", zeroSchema, ""⟩ ∧
    (⟨"unknown", zeroSchema, ""⟩ : IRResponse) ≠ ⟨"void", zeroSchema, ""⟩ := by
  exact ⟨rfl, by simp⟩

/-- Helper for C6: the two per-status selections agree. -/
theorem respFromStatus_eq_respSpec (rv : OResp) :
    respFromStatus rv = respSpec rv := by
  unfold respFromStatus respSpec
  cases h : rv.content.lookup "application/json" with
  | some m => simp [h, Option.orElse]
  | none =>
      cases hc : rv.content with
      | nil => simp [h, Option.orElse]
      | cons e t =>
          obtain ⟨ct, media⟩ := e
          simp [h, Option.orElse]

/-- Helper for C6: the `2xx` scanning loop takes the first eligible entry
and emits its response. -/
theorem scan2xx_eq_find (rs : List (String × Option OResp)) :
    scan2xx rs = (rs.find? eligible2xx).map emit2xxSpec := by
  induction rs with
  | nil => rfl
  | cons e rest ih =>
      obtain ⟨code, rrOpt⟩ := e
      rw [scan2xx.eq_def]
      simp only []
      by_cases h2 : is2xxCode code = true
      · cases rrOpt with
        | none =>
            rw [List.find?_cons_of_neg _ (by simp [eligible2xx])]
            simp only [h2, if_true]
            exact ih
        | some rv =>
            by_cases h204 : code = "204"
            · subst h204
              rw [List.find?_cons_of_pos _ (by simp [eligible2xx, h2])]
              simp [h2, emit2xxSpec]
            · cases hjson : rv.content.lookup "application/json" with
              | some media =>
                  have hne : rv.content.isEmpty = false := by
                    cases hc : rv.content with
                    | nil => rw [hc] at hjson; simp at hjson
                    | cons a b => simp
                  rw [List.find?_cons_of_pos _
                    (by simp [eligible2xx, h2, h204, hne])]
                  simp [h2, h204, hjson, emit2xxSpec, Option.orElse]
              | none =>
                  cases hc : rv.content with
                  | nil =>
                      rw [List.find?_cons_of_neg _
                        (by simp [eligible2xx, h2, h204, hc])]
                      simp only [h2, if_true, hc]
                      rw [if_neg h204]
                      simp [ih]
                  | cons m t =>
                      obtain ⟨ct, media⟩ := m
                      rw [hc] at hjson
                      rw [List.find?_cons_of_pos _
                        (by simp [eligible2xx, h2, h204, hc])]
                      simp [h2, h204, hjson, hc, emit2xxSpec, Option.orElse]
      · rw [List.find?_cons_of_neg _ (by cases rrOpt <;> simp [eligible2xx, h2])]
        simp only [h2]
        simp only [Bool.false_eq_true, if_false]
        exact ih

/-- C6 (amended): response selection follows the precedence — status `200`
then `201`, on that status preferring the structured media type, else any
declared media type, else the explicit no-content response; if neither
exists, the first eligible `2xx` status in iteration order, where only
`204` yields no-content and a contentless non-`204` status is skipped; and
if nothing matches, the explicit `unknown` marker, never an empty
response. -/
theorem extractResponse_eq_spec (op : OOperation) :
    extractResponse op = specExtractResponse op := by
  unfold extractResponse specExtractResponse tryStatus
  cases hr : op.responses with
  | none => simp
  | some m =>
      simp only [Option.getD_some]
      cases h200 : m.lookup "200" with
      | some o200 =>
          cases o200 with
          | some rv =>
              simp [h200, respFromStatus_eq_respSpec, Option.orElse]
          | none =>
              cases h201 : m.lookup "201" with
              | some o201 =>
                  cases o201 with
                  | some rv =>
                      simp [h200, h201, respFromStatus_eq_respSpec, Option.orElse]
                  | none =>
                      simp [h200, h201, scan2xx_eq_find, Option.orElse]
              | none =>
                  simp [h200, h201, scan2xx_eq_find, Option.orElse]
      | none =>
          cases h201 : m.lookup "201" with
          | some o201 =>
              cases o201 with
              | some rv =>
                  simp [h200, h201, respFromStatus_eq_respSpec, Option.orElse]
              | none =>
                  simp [h200, h201, scan2xx_eq_find, Option.orElse]
          | none =>
              simp [h200, h201, scan2xx_eq_find, Option.orElse]

set_option maxHeartbeats 4000000 in
/-- Helper for C2: converting the top-level enum component registers the
enum under the component's own name and returns a self-referential `Ref`. -/
theorem colorEnum_convert :
    schemaRefToIRWithNaming (some colorEnumComponent) "Color" "" false ⟨[], []⟩ =
      (IRSchema.mkRefN "Color" false,
       ⟨[⟨"Color", IRSchema.mkEnum ["red", "green"] [.vstr "red", .vstr "green"] .str false⟩],
        ["Color"]⟩) := by
  unfold colorEnumComponent
  simp only [schemaRefToIRWithNaming.eq_def, convertValue.eq_def]
  rfl

/-- C2: for a components map whose single entry `Color` is a top-level
enum, `buildStructuredModels` (the `internal/cli/run.go` version, whose
`seen` set starts empty and marks a component's name only after its
conversion) registers the hoisted enum under `Color` and then appends the
component entry under `Color` again — two `IRModelDef`s share the name,
violating uniqueness. -/
theorem buildStructuredModels_duplicate_enum_name :
    buildStructuredModels [("Color", colorEnumComponent)] =
      [⟨"Color", IRSchema.mkEnum ["red", "green"] [.vstr "red", .vstr "green"] .str false⟩,
       ⟨"Color", IRSchema.mkRefN "Color" false⟩] ∧
    (buildStructuredModels [("Color", colorEnumComponent)]).map (fun m => m.name)
      = ["Color", "Color"] := by
  have h : buildStructuredModels [("Color", colorEnumComponent)] =
      [⟨"Color", IRSchema.mkEnum ["red", "green"] [.vstr "red", .vstr "green"] .str false⟩,
       ⟨"Color", IRSchema.mkRefN "Color" false⟩] := by
    simp only [buildStructuredModels, bsmLoop, sortStrings, insertStr,
      List.map, List.lookup]
    norm_num [colorEnum_convert]
  exact ⟨h, by rw [h]; rfl⟩

/-- C3 counterexample: a component that is a top-level `oneOf` with an
inline object member keeps the `Object` node in place below the top level
of the model's schema — composition members inherit the (empty) top-level
naming context and are not hoisted. -/
theorem toplevel_oneOf_member_not_hoisted :
    buildStructuredModels [("Foo", fooOneOfComponent)] = [⟨"Foo", fooOneOfIR⟩] ∧
    noNestedObjEnum fooOneOfIR = false := by
  have h1 : schemaRefToIRWithNaming
      (some (ORef.mk "" (some (OSchema.mk (some OType.string) "" false [] [] [] [] [] [] none none none))))
      "Foo" "a" false ⟨[], []⟩ = (IRSchema.mkString false "", ⟨[], []⟩) := by
    simp only [schemaRefToIRWithNaming.eq_def, convertValue.eq_def]
    rfl
  have h2 : convertObjFields
      [("a", ORef.mk "" (some (OSchema.mk (some OType.string) "" false [] [] [] [] [] [] none none none)))]
      "Foo" "" false [] ⟨[], []⟩
      = ([IRField.mk "a" (IRSchema.mkString false "") false], ⟨[], []⟩) := by
    simp only [convertObjFields.eq_def, h1]
    rfl
  have h3 : schemaRefToIRWithNaming (some inlineObjRef) "Foo" "" false ⟨[], []⟩
      = (IRSchema.mkObject [IRField.mk "a" (IRSchema.mkString false "") false] none false,
         ⟨[], []⟩) := by
    unfold inlineObjRef
    simp only [schemaRefToIRWithNaming.eq_def, convertValue.eq_def,
      convertObject.eq_def, h2]
    rfl
  have h4 : convertRefList [inlineObjRef] "Foo" "" false ⟨[], []⟩
      = ([IRSchema.mkObject [IRField.mk "a" (IRSchema.mkString false "") false] none false],
         ⟨[], []⟩) := by
    simp only [convertRefList.eq_def, h3]
  have h5 : schemaRefToIRWithNaming (some fooOneOfComponent) "Foo" "" false ⟨[], []⟩
      = (fooOneOfIR, ⟨[], []⟩) := by
    rw [fooOneOfComponent.eq_def]
    simp only [schemaRefToIRWithNaming.eq_def, convertValue.eq_def, h4]
    rfl
  have hl : List.lookup "Foo" [("Foo", fooOneOfComponent)] = some fooOneOfComponent := rfl
  have hobj : cleanAll
      (IRSchema.mkObject [IRField.mk "a" (IRSchema.mkString false "") false] none false)
      = false := by
    rw [cleanAll.eq_def]
    rfl
  constructor
  · simp only [buildStructuredModels, bsmLoop, sortStrings, insertStr,
      List.map, hl, h5]
    rfl
  · simp only [noNestedObjEnum, fooOneOfIR, IRSchema.mkOneOf,
      List.all_cons, List.all_nil, hobj]
    rfl

/-! #### Value lemmas for the hoisting predicates -/

theorem cleanAll_mkRef (n : String) : cleanAll (IRSchema.mkRef n) = true := rfl

theorem cleanAll_mkRefN (n : String) (b : Bool) : cleanAll (IRSchema.mkRefN n b) = true := rfl

theorem cleanAll_mkString (b : Bool) (f : String) : cleanAll (IRSchema.mkString b f) = true := rfl

theorem cleanAll_ofKind (k : IRKind) :
    cleanAll (IRSchema.ofKind k) = (!(k == .object) && !(k == .enum)) := by
  simp [IRSchema.ofKind, cleanAll, cleanAllOpt, cleanAllList, cleanAllFields]

theorem cleanAll_ofKindN (k : IRKind) (b : Bool) :
    cleanAll (IRSchema.ofKindN k b) = (!(k == .object) && !(k == .enum)) := by
  simp [IRSchema.ofKindN, cleanAll, cleanAllOpt, cleanAllList, cleanAllFields]

theorem cleanAll_mkArray (inner : IRSchema) (b : Bool) :
    cleanAll (IRSchema.mkArray inner b) = cleanAll inner := by
  simp [IRSchema.mkArray, cleanAll, cleanAllOpt, cleanAllList, cleanAllFields]

theorem cleanAll_mkOneOf (subs : List IRSchema) (b : Bool) :
    cleanAll (IRSchema.mkOneOf subs b) = cleanAllList subs := by
  simp [IRSchema.mkOneOf, cleanAll, cleanAllOpt, cleanAllList, cleanAllFields]

theorem cleanAll_mkAnyOf (subs : List IRSchema) (b : Bool) :
    cleanAll (IRSchema.mkAnyOf subs b) = cleanAllList subs := by
  simp [IRSchema.mkAnyOf, cleanAll, cleanAllOpt, cleanAllList, cleanAllFields]

theorem cleanAll_mkAllOf (subs : List IRSchema) (b : Bool) :
    cleanAll (IRSchema.mkAllOf subs b) = cleanAllList subs := by
  simp [IRSchema.mkAllOf, cleanAll, cleanAllOpt, cleanAllList, cleanAllFields]

theorem cleanAll_mkNot (inner : IRSchema) (b : Bool) :
    cleanAll (IRSchema.mkNot inner b) = cleanAll inner := by
  simp [IRSchema.mkNot, cleanAll, cleanAllOpt, cleanAllList, cleanAllFields]

theorem cleanTop_mkRef (n : String) : cleanTop (IRSchema.mkRef n) = true := rfl

theorem cleanTop_mkRefN (n : String) (b : Bool) : cleanTop (IRSchema.mkRefN n b) = true := rfl

theorem cleanTop_mkString (b : Bool) (f : String) : cleanTop (IRSchema.mkString b f) = true := rfl

theorem cleanTop_ofKindN (k : IRKind) (b : Bool) : cleanTop (IRSchema.ofKindN k b) = true := by
  simp [IRSchema.ofKindN, cleanTop, cleanAllOpt, cleanTopList, cleanAllFields]

theorem cleanTop_mkEnum (vals : List String) (raw : List GoVal) (base : IRKind) (b : Bool) :
    cleanTop (IRSchema.mkEnum vals raw base b) = true := by
  simp [IRSchema.mkEnum, cleanTop, cleanAllOpt, cleanTopList, cleanAllFields]

theorem cleanTop_mkArray (inner : IRSchema) (b : Bool) :
    cleanTop (IRSchema.mkArray inner b) = cleanAll inner := by
  simp [IRSchema.mkArray, cleanTop, cleanAllOpt, cleanTopList, cleanAllFields]

theorem cleanTop_mkObject (fields : List IRField) (addl : Option IRSchema) (b : Bool) :
    cleanTop (IRSchema.mkObject fields addl b)
      = (cleanAllFields fields && cleanAllOpt addl) := by
  simp [IRSchema.mkObject, cleanTop, cleanAllOpt, cleanTopList, cleanAllFields]

theorem cleanTop_mkOneOf (subs : List IRSchema) (b : Bool) :
    cleanTop (IRSchema.mkOneOf subs b) = cleanTopList subs := by
  simp [IRSchema.mkOneOf, cleanTop, cleanAllOpt, cleanTopList, cleanAllFields]

theorem cleanTop_mkAnyOf (subs : List IRSchema) (b : Bool) :
    cleanTop (IRSchema.mkAnyOf subs b) = cleanTopList subs := by
  simp [IRSchema.mkAnyOf, cleanTop, cleanAllOpt, cleanTopList, cleanAllFields]

theorem cleanTop_mkAllOf (subs : List IRSchema) (b : Bool) :
    cleanTop (IRSchema.mkAllOf subs b) = cleanTopList subs := by
  simp [IRSchema.mkAllOf, cleanTop, cleanAllOpt, cleanTopList, cleanAllFields]

theorem cleanTop_mkNot (inner : IRSchema) (b : Bool) :
    cleanTop (IRSchema.mkNot inner b) = (!(inner.kind == .enum) && cleanTop inner) := by
  simp [IRSchema.mkNot, cleanTop, cleanAllOpt, cleanTopList, cleanAllFields]

theorem cleanAll_kind_ne_enum {s : IRSchema} (h : cleanAll s = true) : s.kind ≠ .enum := by
  cases s with
  | mk kind nl f props addl items ev er eb r one anyL allL ntM =>
      simp [cleanAll] at h
      simp [IRSchema.kind]
      intro he
      rw [he] at h
      simp at h

theorem cleanAll_kind_ne_object {s : IRSchema} (h : cleanAll s = true) : s.kind ≠ .object := by
  cases s with
  | mk kind nl f props addl items ev er eb r one anyL allL ntM =>
      simp [cleanAll] at h
      simp [IRSchema.kind]
      intro he
      rw [he] at h
      simp at h

/-- The defining equation of `cleanTop` on a constructor. -/
theorem cleanTop_mk (kind : IRKind) (nl : Bool) (f : String) (props : List IRField)
    (addl items : Option IRSchema) (ev : List String) (er : List GoVal) (eb : IRKind)
    (r : String) (one anyL allL : List IRSchema) (ntM : Option IRSchema) :
    cleanTop (.mk kind nl f props addl items ev er eb r one anyL allL ntM)
      = (cleanAllFields props && cleanAllOpt addl && cleanAllOpt items
         && cleanTopList one && cleanTopList anyL && cleanTopList allL
         && (match ntM with | some n => !(n.kind == .enum) && cleanTop n | none => true)) := by
  rw [cleanTop.eq_def]

/-- A fully-hoisted subtree satisfies the registry shape: `cleanAll`
implies `cleanTop` (with the companion statements for lists). -/
theorem cleanAll_imp_cleanTop :
    (∀ s, cleanAll s = true → cleanTop s = true) ∧
    (∀ l, cleanAllList l = true → cleanTopList l = true) := by
  have main : ∀ k, (∀ s, sizeOf s ≤ k → cleanAll s = true → cleanTop s = true) ∧
      (∀ l : List IRSchema, sizeOf l ≤ k → cleanAllList l = true → cleanTopList l = true) := by
    intro k
    induction k using Nat.strong_induction_on with
    | _ k ih =>
      constructor
      · intro s hk h
        cases s with
        | mk kind nl f props addl items ev er eb r one anyL allL ntM =>
            simp [cleanAll] at h
            rw [cleanTop_mk]
            simp only [Bool.and_eq_true]
            obtain ⟨⟨⟨⟨⟨⟨⟨⟨hko, hke⟩, h3⟩, h4⟩, h5⟩, h6⟩, h7⟩, h8⟩, h9⟩ := h
            simp at hk
            refine ⟨⟨⟨⟨⟨⟨h3, h4⟩, h5⟩, ?_⟩, ?_⟩, ?_⟩, ?_⟩
            · exact (ih (sizeOf one) (by omega)).2 one (le_refl _) h6
            · exact (ih (sizeOf anyL) (by omega)).2 anyL (le_refl _) h7
            · exact (ih (sizeOf allL) (by omega)).2 allL (le_refl _) h8
            · cases ntM with
              | none => rfl
              | some n =>
                  simp only [cleanAllOpt] at h9
                  have hne := cleanAll_kind_ne_enum h9
                  have hsz : sizeOf (some n : Option IRSchema) = 1 + sizeOf n := by simp
                  have hct := (ih (sizeOf n) (by omega)).1 n (le_refl _) h9
                  simp [hct, hne]
      · intro l hk h
        cases l with
        | nil => simp [cleanTopList]
        | cons c cs =>
            simp [cleanAllList] at h
            simp at hk
            have hne := cleanAll_kind_ne_enum h.1
            have h1 := (ih (sizeOf c) (by omega)).1 c (le_refl _) h.1
            have h2 := (ih (sizeOf cs) (by omega)).2 cs (le_refl _) h.2
            simp [cleanTopList, hne, h1, h2]
  exact ⟨fun s => (main (sizeOf s)).1 s (le_refl _),
         fun l => (main (sizeOf l)).2 l (le_refl _)⟩

/-! #### Further helpers for the C3 invariant -/

theorem kind_mkRef (n : String) : (IRSchema.mkRef n).kind = .ref := rfl

theorem kind_mkRefN (n : String) (b : Bool) : (IRSchema.mkRefN n b).kind = .ref := rfl

theorem kind_mkString (b : Bool) (f : String) : (IRSchema.mkString b f).kind = .str := rfl

theorem kind_ofKind (k : IRKind) : (IRSchema.ofKind k).kind = k := rfl

theorem kind_ofKindN (k : IRKind) (b : Bool) : (IRSchema.ofKindN k b).kind = k := rfl

theorem kind_mkArray (i : IRSchema) (b : Bool) : (IRSchema.mkArray i b).kind = .array := rfl

theorem kind_mkObject (f : List IRField) (a : Option IRSchema) (b : Bool) :
    (IRSchema.mkObject f a b).kind = .object := rfl

theorem kind_mkEnum (v : List String) (r : List GoVal) (e : IRKind) (b : Bool) :
    (IRSchema.mkEnum v r e b).kind = .enum := rfl

theorem kind_mkOneOf (s : List IRSchema) (b : Bool) : (IRSchema.mkOneOf s b).kind = .oneOf := rfl

theorem kind_mkAnyOf (s : List IRSchema) (b : Bool) : (IRSchema.mkAnyOf s b).kind = .anyOf := rfl

theorem kind_mkAllOf (s : List IRSchema) (b : Bool) : (IRSchema.mkAllOf s b).kind = .allOf := rfl

theorem kind_mkNot (i : IRSchema) (b : Bool) : (IRSchema.mkNot i b).kind = .notK := rfl

theorem cleanAll_unknown : cleanAll (IRSchema.ofKind .unknown) = true := rfl

theorem cleanTop_unknown : cleanTop (IRSchema.ofKind .unknown) = true := rfl

theorem cleanTop_unknownN (b : Bool) : cleanTop (IRSchema.ofKindN .unknown b) = true := rfl

/-- `refToName` yields a `Ref` or `Unknown` node: clean in every sense. -/
theorem refToName_clean (r : String) :
    cleanAll (refToName r) = true ∧ cleanTop (refToName r) = true ∧
    (refToName r).kind ≠ .enum := by
  unfold refToName
  split
  · exact ⟨cleanAll_mkRef _, cleanTop_mkRef _, by rw [kind_mkRef]; simp⟩
  · split
    · split
      · exact ⟨cleanAll_mkRef _, cleanTop_mkRef _, by rw [kind_mkRef]; simp⟩
      · exact ⟨cleanAll_unknown, cleanTop_unknown, by rw [kind_ofKind]; simp⟩
    · exact ⟨cleanAll_unknown, cleanTop_unknown, by rw [kind_ofKind]; simp⟩

/-- Inserting a field preserves the conjunction of type cleanliness. -/
theorem cleanAllFields_insert (f : IRField) (l : List IRField) :
    cleanAllFields (insertField f l) = (cleanAll f.type && cleanAllFields l) := by
  induction l with
  | nil =>
      cases f with
      | mk fn ft fr => simp [insertField, cleanAllFields, IRField.type]
  | cons g gs ih =>
      cases f with
      | mk fn ft fr =>
        cases g with
        | mk gn gt gr =>
          simp only [insertField]
          split
          · simp [cleanAllFields, IRField.type]
          · simp only [cleanAllFields, IRField.type] at ih ⊢
            rw [ih]
            cases hgt : cleanAll gt <;> cases hft : cleanAll ft <;> simp [hgt, hft]

/-- Sorting the fields does not change the conjunction of type
cleanliness. -/
theorem cleanAllFields_sortFields (l : List IRField) :
    cleanAllFields (sortFields l) = cleanAllFields l := by
  induction l with
  | nil => rfl
  | cons f fs ih =>
      cases f with
      | mk fn ft fr =>
        simp only [sortFields, cleanAllFields]
        rw [cleanAllFields_insert, ih]
        simp [IRField.type]

/-- Appending a `cleanTop` model preserves the state invariant. -/
theorem stInv_append {st : NState} {md : IRModelDef} {seen : List String}
    (h : stInv st) (hmd : cleanTop md.schema = true) :
    stInv ⟨st.out ++ [md], seen⟩ := by
  intro m hm
  rcases List.mem_append.mp hm with h1 | h2
  · exact h m h1
  · rw [List.mem_singleton.mp h2]
    exact hmd

/-- A successful association lookup over an all-well-formed component map
yields a well-formed schema ref. -/
theorem lookup_wf {schemas : List (String × ORef)} {name : String} {r : ORef}
    (hwf : schemas.all (fun p => oWfRef p.2) = true)
    (h : schemas.lookup name = some r) : oWfRef r = true := by
  induction schemas with
  | nil => simp [List.lookup] at h
  | cons p rest ih =>
      obtain ⟨pn, pv⟩ := p
      simp only [List.all_cons, Bool.and_eq_true] at hwf
      simp only [List.lookup] at h
      split at h
      · cases h
        exact hwf.1
      · exact ih hwf.2 h

/-- The master conversion invariant, by strong induction on the size rank:
for each of the seven mutually recursive conversion functions, well-formed
input and a clean registry yield a clean registry, a non-`Enum` result,
full hoisting (`cleanAll`) in any nested context, and the top-level shape
`cleanTop` everywhere. -/
theorem convInvariant : ∀ k : Nat,
    (∀ (sr : Option ORef) (p q : String) (i : Bool) (st : NState), sizeOf sr ≤ k →
       oWfOpt sr = true → stInv st → conc q i (schemaRefToIRWithNaming sr p q i st)) ∧
    (∀ (s : OSchema) (p q : String) (i : Bool) (st : NState), sizeOf s ≤ k →
       oWfS s = true → stInv st → conc q i (convertValue s p q i st)) ∧
    (∀ (itemsO : Option ORef) (p q : String) (nl : Bool) (st : NState), sizeOf itemsO + 1 ≤ k →
       oWfOpt itemsO = true → stInv st →
       stInv (convertArray itemsO p q nl st).2 ∧ cleanAll (convertArray itemsO p q nl st).1 = true) ∧
    (∀ (props : List (String × ORef)) (req : List String) (addlO : Option ORef)
       (p q : String) (i nl : Bool) (st : NState), sizeOf props + sizeOf addlO + 1 ≤ k →
       oWfProps props = true → oWfOpt addlO = true → stInv st →
       conc q i (convertObject props req addlO p q i nl st)) ∧
    (∀ (props : List (String × ORef)) (p q : String) (i : Bool) (req : List String)
       (st : NState), sizeOf props ≤ k → oWfProps props = true → stInv st →
       stInv (convertObjFields props p q i req st).2 ∧
       cleanAllFields (convertObjFields props p q i req st).1 = true) ∧
    (∀ (members : List ORef) (p q : String) (i : Bool) (st : NState), sizeOf members ≤ k →
       oWfList members = true → stInv st →
       stInv (convertRefList members p q i st).2 ∧
       ((q ≠ "" ∨ i = true) → cleanAllList (convertRefList members p q i st).1 = true) ∧
       cleanTopList (convertRefList members p q i st).1 = true) ∧
    (∀ (s : OSchema) (name : String) (st : NState), sizeOf s ≤ k →
       oWfS s = true → stInv st →
       stInv (buildNamedObjectDef s name st).2 ∧
       cleanTop (buildNamedObjectDef s name st).1.schema = true) := by
  intro k
  induction k using Nat.strong_induction_on with
  | _ k ih =>
    have ihA := fun m (hm : m < k) => (ih m hm).1
    have ihB := fun m (hm : m < k) => (ih m hm).2.1
    have ihC := fun m (hm : m < k) => (ih m hm).2.2.1
    have ihD := fun m (hm : m < k) => (ih m hm).2.2.2.1
    have ihE := fun m (hm : m < k) => (ih m hm).2.2.2.2.1
    have ihF := fun m (hm : m < k) => (ih m hm).2.2.2.2.2.1
    have ihG := fun m (hm : m < k) => (ih m hm).2.2.2.2.2.2
    refine ⟨?_, ?_, ?_, ?_, ?_, ?_, ?_⟩
    · -- A: schemaRefToIRWithNaming
      intro sr p q i st hk hwf hst
      cases sr with
      | none =>
          rw [schemaRefToIRWithNaming.eq_def]
          exact ⟨hst, by rw [kind_ofKind]; simp, fun _ => cleanAll_unknown, cleanTop_unknown⟩
      | some oref =>
          cases oref with
          | mk refStr val =>
              rw [schemaRefToIRWithNaming.eq_def]
              simp only []
              split
              · obtain ⟨hca, hct, hkd⟩ := refToName_clean refStr
                exact ⟨hst, hkd, fun _ => hca, hct⟩
              · cases val with
                | none =>
                    exact ⟨hst, by rw [kind_ofKind]; simp, fun _ => cleanAll_unknown, cleanTop_unknown⟩
                | some s =>
                    have hwfs : oWfS s = true := by
                      simpa [oWfOpt, oWfRef] using hwf
                    have hlt : sizeOf s < k := by
                      simp at hk
                      omega
                    exact ihB (sizeOf s) hlt s p q i st (le_refl _) hwfs hst
    · -- B: convertValue
      intro s p q i st hk hwf hst
      cases s with
      | mk otype format nullable props req enumVals one anyL allL notS itemsO addlO =>
      simp only [oWfS, Bool.and_eq_true] at hwf
      obtain ⟨⟨⟨⟨⟨⟨hP, hOne⟩, hAny⟩, hAll⟩, hNot⟩, hItems⟩, hAddl⟩ := hwf
      simp at hk
      rw [convertValue.eq_def]
      simp only []
      split
      · obtain ⟨hsF, hcaF, hctF⟩ := ihF (sizeOf one) (by omega) one p q i st (le_refl _) hOne hst
        refine ⟨hsF, ?_, ?_, ?_⟩
        · rw [kind_mkOneOf]; simp
        · intro hqi; rw [cleanAll_mkOneOf]; exact hcaF hqi
        · rw [cleanTop_mkOneOf]; exact hctF
      · split
        · obtain ⟨hsF, hcaF, hctF⟩ := ihF (sizeOf anyL) (by omega) anyL p q i st (le_refl _) hAny hst
          refine ⟨hsF, ?_, ?_, ?_⟩
          · rw [kind_mkAnyOf]; simp
          · intro hqi; rw [cleanAll_mkAnyOf]; exact hcaF hqi
          · rw [cleanTop_mkAnyOf]; exact hctF
        · split
          · obtain ⟨hsF, hcaF, hctF⟩ := ihF (sizeOf allL) (by omega) allL p q i st (le_refl _) hAll hst
            refine ⟨hsF, ?_, ?_, ?_⟩
            · rw [kind_mkAllOf]; simp
            · intro hqi; rw [cleanAll_mkAllOf]; exact hcaF hqi
            · rw [cleanTop_mkAllOf]; exact hctF
          · split
            · -- notS = some n
              rename_i n
              simp only [oWfOpt] at hNot
              have hsz : sizeOf (some n : Option ORef) = 1 + sizeOf n := by simp
              obtain ⟨hsA, hkA, hcaA, hctA⟩ :=
                ihA (1 + sizeOf n) (by omega) (some n) p q i st (by omega) hNot hst
              refine ⟨hsA, ?_, ?_, ?_⟩
              · rw [kind_mkNot]; simp
              · intro hqi; rw [cleanAll_mkNot]; exact hcaA hqi
              · rw [cleanTop_mkNot]
                simp only [Bool.and_eq_true]
                exact ⟨by simpa using hkA, hctA⟩
            · -- notS = none
              split
              · -- enum branch
                split
                · exact ⟨hst, by rw [kind_mkRefN]; simp,
                    fun _ => cleanAll_mkRefN _ _, cleanTop_mkRefN _ _⟩
                · exact ⟨stInv_append hst (cleanTop_mkEnum _ _ _ _),
                    by rw [kind_mkRefN]; simp,
                    fun _ => cleanAll_mkRefN _ _, cleanTop_mkRefN _ _⟩
              · -- type dispatch
                split
                · exact ⟨hst, by rw [kind_mkString]; simp, fun _ => rfl, rfl⟩
                · exact ⟨hst, by rw [kind_ofKindN]; simp, fun _ => rfl, rfl⟩
                · exact ⟨hst, by rw [kind_ofKindN]; simp, fun _ => rfl, rfl⟩
                · exact ⟨hst, by rw [kind_ofKindN]; simp, fun _ => rfl, rfl⟩
                · -- array
                  obtain ⟨hsC, hcaC⟩ := ihC (sizeOf itemsO + 1) (by omega) itemsO p q nullable st
                    (le_refl _) hItems hst
                  exact ⟨hsC, cleanAll_kind_ne_enum hcaC, fun _ => hcaC,
                    cleanAll_imp_cleanTop.1 _ hcaC⟩
                · -- object
                  exact ihD (sizeOf props + sizeOf addlO + 1) (by omega) props req addlO p q i
                    nullable st (le_refl _) hP hAddl hst
                · exact ⟨hst, by rw [kind_ofKindN]; simp, fun _ => rfl, rfl⟩
    · -- C: convertArray
      intro itemsO p q nl st hk hwf hst
      cases itemsO with
      | none =>
          simp only [convertArray.eq_def]
          obtain ⟨hsA, hkA, hcaA, hctA⟩ :=
            ihA 1 (by simp at hk; omega) none p q true st (by simp) rfl hst
          refine ⟨hsA, ?_⟩
          rw [cleanAll_mkArray]
          exact hcaA (Or.inr rfl)
      | some oref =>
          cases oref with
          | mk iRef iVal =>
              cases iVal with
              | none =>
                  simp only [convertArray.eq_def]
                  obtain ⟨hsA, hkA, hcaA, hctA⟩ :=
                    ihA (sizeOf (some (ORef.mk iRef none))) (by simp at hk ⊢; omega)
                      (some (ORef.mk iRef none)) p q true st (le_refl _) rfl hst
                  refine ⟨hsA, ?_⟩
                  rw [cleanAll_mkArray]
                  exact hcaA (Or.inr rfl)
              | some itemVal =>
                  simp only [convertArray.eq_def]
                  split
                  · obtain ⟨hsA, hkA, hcaA, hctA⟩ :=
                      ihA (sizeOf (some (ORef.mk iRef (some itemVal))))
                        (by simp at hk ⊢; omega)
                        (some (ORef.mk iRef (some itemVal))) p q true st (le_refl _) hwf hst
                    refine ⟨hsA, ?_⟩
                    rw [cleanAll_mkArray]
                    exact hcaA (Or.inr rfl)
                  · split
                    · have hwfv : oWfS itemVal = true := by
                        simpa [oWfOpt, oWfRef] using hwf
                      split <;> split
                      all_goals try
                        exact ⟨hst, by rw [cleanAll_mkArray]; exact cleanAll_mkRef _⟩
                      all_goals
                        obtain ⟨hsG, hctG⟩ := ihG (sizeOf itemVal) (by simp at hk; omega)
                          itemVal _ st (le_refl _) hwfv hst
                      all_goals
                        exact ⟨stInv_append hsG hctG,
                          by rw [cleanAll_mkArray]; exact cleanAll_mkRef _⟩
                    · obtain ⟨hsA, hkA, hcaA, hctA⟩ :=
                        ihA (sizeOf (some (ORef.mk iRef (some itemVal))))
                          (by simp at hk ⊢; omega)
                          (some (ORef.mk iRef (some itemVal))) p q true st (le_refl _) hwf hst
                      refine ⟨hsA, ?_⟩
                      rw [cleanAll_mkArray]
                      exact hcaA (Or.inr rfl)
    · -- D: convertObject
      intro props req addlO p q i nl st hk hwfp hwfa hst
      have haddl : 1 ≤ sizeOf addlO := by cases addlO <;> simp_arith
      obtain ⟨hsE, hcfE⟩ :=
        ihE (sizeOf props) (by omega) props p q i req st (le_refl _) hwfp hst
      cases addlO with
      | none =>
          simp only [convertObject.eq_def]
          split
          · split
            · exact ⟨hsE, by simp [kind_mkRef], fun _ => cleanAll_mkRef _, cleanTop_mkRef _⟩
            · refine ⟨stInv_append hsE ?_, by simp [kind_mkRef],
                fun _ => cleanAll_mkRef _, cleanTop_mkRef _⟩
              simp [cleanTop_mkObject, cleanAllFields_sortFields, hcfE, cleanAllOpt]
          · rename_i hnot
            refine ⟨hsE, by simp [kind_mkObject], fun hqi => absurd hqi hnot, ?_⟩
            simp [cleanTop_mkObject, cleanAllFields_sortFields, hcfE, cleanAllOpt]
      | some a =>
          simp only [convertObject.eq_def]
          obtain ⟨hsA, hkA, hcaA, hctA⟩ :=
            ihA (sizeOf (some a : Option ORef)) (by simp at hk ⊢; omega) (some a) p
              "AdditionalProperties" false (convertObjFields props p q i req st).2
              (le_refl _) hwfa hsE
          have hca : cleanAll (schemaRefToIRWithNaming (some a) p "AdditionalProperties"
              false (convertObjFields props p q i req st).2).1 = true :=
            hcaA (Or.inl (by decide))
          split
          · split
            · exact ⟨hsA, by simp [kind_mkRef], fun _ => cleanAll_mkRef _, cleanTop_mkRef _⟩
            · refine ⟨stInv_append hsA ?_, by simp [kind_mkRef],
                fun _ => cleanAll_mkRef _, cleanTop_mkRef _⟩
              simp [cleanTop_mkObject, cleanAllFields_sortFields, hcfE, cleanAllOpt, hca]
          · rename_i hnot
            refine ⟨hsA, by simp [kind_mkObject], fun hqi => absurd hqi hnot, ?_⟩
            simp [cleanTop_mkObject, cleanAllFields_sortFields, hcfE, cleanAllOpt, hca]
    · -- E: convertObjFields
      intro props p q i req st hk hwf hst
      cases props with
      | nil =>
          simp only [convertObjFields.eq_def]
          exact ⟨hst, rfl⟩
      | cons pr rest =>
          obtain ⟨n, prR, prVal⟩ := pr
          simp only [oWfProps, Bool.and_eq_true] at hwf
          obtain ⟨⟨hnne, hprw⟩, hrest⟩ := hwf
          have hn : n ≠ "" := by simpa using hnne
          cases prVal with
          | none =>
              rw [convertObjFields.eq_def]
              dsimp only
              obtain ⟨hsA, hkA, hcaA, hctA⟩ :=
                ihA (sizeOf (some (ORef.mk prR none))) (by simp at hk ⊢; omega)
                  (some (ORef.mk prR none)) p n false st (le_refl _) rfl hst
              obtain ⟨hsR, hcfR⟩ :=
                ihE (sizeOf rest) (by simp at hk; omega) rest p q i req _ (le_refl _)
                  hrest hsA
              exact ⟨hsR, by simp [cleanAllFields, hcaA (Or.inl hn), hcfR]⟩
          | some v =>
              rw [convertObjFields.eq_def]
              dsimp only
              split
              · have hwfv : oWfS v = true := by simpa [oWfRef] using hprw
                split <;> split
                all_goals try (
                  obtain ⟨hsR, hcfR⟩ :=
                    ihE (sizeOf rest) (by simp at hk; omega) rest p q i req st (le_refl _)
                      hrest hst;
                  exact ⟨hsR, by simp [cleanAllFields, cleanAll_mkRef, hcfR]⟩)
                all_goals
                  obtain ⟨hsG, hctG⟩ :=
                    ihG (sizeOf v) (by simp at hk; omega) v _ st (le_refl _) hwfv hst
                all_goals
                  obtain ⟨hsR, hcfR⟩ :=
                    ihE (sizeOf rest) (by simp at hk; omega) rest p q i req _ (le_refl _)
                      hrest (stInv_append hsG hctG)
                all_goals
                  exact ⟨hsR, by simp [cleanAllFields, cleanAll_mkRef, hcfR]⟩
              · obtain ⟨hsA, hkA, hcaA, hctA⟩ :=
                  ihA (sizeOf (some (ORef.mk prR (some v)))) (by simp at hk ⊢; omega)
                    (some (ORef.mk prR (some v))) p n false st (le_refl _)
                    (by simpa [oWfOpt] using hprw) hst
                obtain ⟨hsR, hcfR⟩ :=
                  ihE (sizeOf rest) (by simp at hk; omega) rest p q i req _ (le_refl _)
                    hrest hsA
                exact ⟨hsR, by simp [cleanAllFields, hcaA (Or.inl hn), hcfR]⟩
    · -- F: convertRefList
      intro members p q i st hk hwf hst
      cases members with
      | nil =>
          simp only [convertRefList.eq_def]
          exact ⟨hst, fun _ => rfl, rfl⟩
      | cons r rest =>
          rw [convertRefList.eq_def]
          dsimp only
          simp only [oWfList, Bool.and_eq_true] at hwf
          obtain ⟨hr, hrest⟩ := hwf
          have hrest0 : 0 < sizeOf rest := by cases rest <;> simp_arith
          obtain ⟨hsA, hkA, hcaA, hctA⟩ :=
            ihA (sizeOf (some r : Option ORef)) (by simp at hk ⊢; omega) (some r) p q i st
              (le_refl _) hr hst
          obtain ⟨hsR, hcaR, hctR⟩ :=
            ihF (sizeOf rest) (by simp at hk; omega) rest p q i _ (le_refl _) hrest hsA
          refine ⟨hsR, ?_, ?_⟩
          · intro hqi
            simp [cleanAllList, hcaA hqi, hcaR hqi]
          · simp [cleanTopList, hctA, hctR, hkA]
    · -- G: buildNamedObjectDef
      intro s name st hk hwf hst
      cases s with
      | mk ot fmt nl props req ev one anyL allL notS itemsO addlO =>
          simp only [oWfS, Bool.and_eq_true] at hwf
          obtain ⟨⟨⟨⟨⟨⟨hP, hOne⟩, hAny⟩, hAll⟩, hNot⟩, hItems⟩, hAddl⟩ := hwf
          obtain ⟨hsE, hcfE⟩ :=
            ihE (sizeOf props) (by simp at hk; omega) props name "" false req st
              (le_refl _) hP hst
          cases addlO with
          | none =>
              simp only [buildNamedObjectDef.eq_def]
              refine ⟨hsE, ?_⟩
              simp [cleanTop_mkObject, cleanAllFields_sortFields, hcfE, cleanAllOpt]
          | some a =>
              simp only [buildNamedObjectDef.eq_def]
              obtain ⟨hsA, hkA, hcaA, hctA⟩ :=
                ihA (sizeOf (some a : Option ORef)) (by simp at hk ⊢; omega) (some a) name
                  "AdditionalProperties" false
                  (convertObjFields props name "" false req st).2 (le_refl _) hAddl hsE
              refine ⟨hsA, ?_⟩
              simp [cleanTop_mkObject, cleanAllFields_sortFields, hcfE, cleanAllOpt,
                hcaA (Or.inl (by decide))]


/-- The loop of `buildStructuredModels` preserves the registry invariant:
each appended component model satisfies `cleanTop`. -/
theorem bsmLoop_inv (schemas : List (String × ORef)) (names : List String) (st : NState)
    (hwf : schemas.all (fun c => oWfRef c.2) = true) (hst : stInv st) :
    stInv (bsmLoop schemas names st) := by
  induction names generalizing st with
  | nil =>
      rw [bsmLoop.eq_def]
      exact hst
  | cons name rest ih =>
      rw [bsmLoop.eq_def]
      dsimp only
      apply ih
      have hlo : oWfOpt (schemas.lookup name) = true := by
        cases hl : schemas.lookup name with
        | none => rfl
        | some r => simpa [oWfOpt] using lookup_wf hwf hl
      obtain ⟨hs, hk, hca, hct⟩ :=
        (convInvariant (sizeOf (schemas.lookup name))).1 (schemas.lookup name)
          name "" false st (le_refl _) hlo hst
      exact stInv_append hs hct

/-- C3 (amended): every model produced by `buildStructuredModels` from a
well-formed component registry satisfies the amended hoisting invariant
`cleanTop`: no `Object` or `Enum` node strictly below the top level except
that `Object` members reached through a top-level composition chain
(`oneOf`/`anyOf`/`allOf`/`not` of the model root) stay inline; `Enum`
nodes are always hoisted. -/
theorem buildStructuredModels_hoisting (schemas : List (String × ORef))
    (hwf : schemas.all (fun c => oWfRef c.2) = true) :
    ∀ md ∈ buildStructuredModels schemas, cleanTop md.schema = true := by
  intro md hmd
  exact bsmLoop_inv schemas _ ⟨[], []⟩ hwf (fun _ hm => nomatch hm) md hmd

theorem buildStructuredModels_hoisting_witness :
    ([("Bar", barComponent)].all (fun c => oWfRef c.2) = true) ∧
    ∀ md ∈ buildStructuredModels [("Bar", barComponent)], cleanTop md.schema = true :=
  ⟨by rfl, buildStructuredModels_hoisting [("Bar", barComponent)] (by rfl)⟩

theorem markName_subset (n : String) (l : List String) : l ⊆ markName n l := by
  unfold markName
  split
  · exact fun _ h => h
  · exact fun _ h => List.mem_cons_of_mem _ h

theorem markName_mem_self (n : String) (l : List String) : n ∈ markName n l := by
  unfold markName
  split
  · assumption
  · exact List.mem_cons_self _ _

theorem markName_mem {a n : String} {l : List String} (h : a ∈ markName n l) :
    a = n ∨ a ∈ l := by
  unfold markName at h
  split at h
  · exact Or.inr h
  · rcases List.mem_cons.mp h with h | h
    · exact Or.inl h
    · exact Or.inr h

theorem markName_subset_of {n : String} {l v : List String} (h : l ⊆ v) (hn : n ∈ v) :
    markName n l ⊆ v := by
  intro a ha
  rcases markName_mem ha with rfl | ha
  · exact hn
  · exact h ha

theorem crPost_nil {all : List IRModelDef} {roots : List IRSchema} {st : CRState} :
    crPost all roots [] st st :=
  ⟨fun _ h => h, fun n hn => absurd hn (List.not_mem_nil n), fun _ h => h,
    fun h => h, fun _ h => h⟩

theorem crPost_append {all : List IRModelDef} {roots : List IRSchema}
    {m1 m2 : List String} {st1 st2 st3 : CRState}
    (h1 : crPost all roots m1 st1 st2) (h2 : crPost all roots m2 st2 st3) :
    crPost all roots (m1 ++ m2) st1 st3 := by
  obtain ⟨r1, c1, cl1, v1, s1⟩ := h1
  obtain ⟨r2, c2, cl2, v2, s2⟩ := h2
  refine ⟨fun a ha => r2 (r1 ha), ?_, fun A h => cl2 A (cl1 A h), fun h => v2 (v1 h), ?_⟩
  · intro n hn
    rcases List.mem_append.mp hn with h | h
    · exact r2 (c1 n h)
    · exact c2 n h
  · intro hR hS
    exact s2 (fun n hn => hR n (List.mem_append_right m1 hn))
      (s1 (fun n hn => hR n (List.mem_append_left m2 hn)) hS)


set_option maxHeartbeats 1000000 in
/-- The collector invariant, by strong induction on the termination
measure: each collector function extends the referenced set, adds every
direct `Ref` target of its argument to it, preserves expansion-closedness
outside any pending set, keeps `referenced ⊆ visited`, and preserves
soundness with respect to `Reach`. -/
theorem crInvariant (all : List IRModelDef) (roots : List IRSchema) : ∀ k : Nat,
    (∀ (kind : IRKind) (ref : String) (st : CRState),
       crMeasure all st.visited 0 ≤ k →
       crPost all roots (if kind = IRKind.ref ∧ ref ≠ "" then [ref] else []) st
         (collectRefHead all kind ref st).1) ∧
    (∀ (s : IRSchema) (st : CRState), crMeasure all st.visited (sizeOf s) ≤ k →
       crPost all roots (refNames s) st (collectRefs all s st).1) ∧
    (∀ (o : Option IRSchema) (st : CRState), crMeasure all st.visited (sizeOf o) ≤ k →
       crPost all roots (refNamesOpt o) st (collectRefsOpt all o st).1) ∧
    (∀ (l : List IRSchema) (st : CRState), crMeasure all st.visited (sizeOf l) ≤ k →
       crPost all roots (refNamesList l) st (collectRefsList all l st).1) ∧
    (∀ (fs : List IRField) (st : CRState), crMeasure all st.visited (sizeOf fs) ≤ k →
       crPost all roots (refNamesFields fs) st (collectRefsFields all fs st).1) := by
  intro k
  induction k using Nat.strong_induction_on with
  | _ k ih =>
    have ihH := fun m (hm : m < k) => (ih m hm).1
    have ihA := fun m (hm : m < k) => (ih m hm).2.1
    have ihB := fun m (hm : m < k) => (ih m hm).2.2.1
    have ihC := fun m (hm : m < k) => (ih m hm).2.2.2.1
    have ihD := fun m (hm : m < k) => (ih m hm).2.2.2.2
    refine ⟨?_, ?_, ?_, ?_, ?_⟩
    · -- collectRefHead
      intro kind ref st hk
      rw [collectRefHead.eq_def]
      dsimp only
      split
      · split
        · rename_i hv
          refine ⟨markName_subset _ _, ?_, ?_, ?_, ?_⟩
          · intro n hn
            rw [List.mem_singleton] at hn
            subst hn
            exact markName_mem_self _ _
          · intro A h n hn hA md hmd x hx
            exact markName_subset _ _ (h n hn hA md hmd x hx)
          · intro h
            exact markName_subset_of h hv
          · intro hR hS
            refine ⟨?_, hS.2⟩
            intro n hn
            rcases markName_mem hn with rfl | hn
            · exact hR _ (by simp)
            · exact hS.1 n hn
        · rename_i hv
          split
          · rename_i md hmd
            dsimp only
            have h := mdLookup_mem hmd
            have h2 := List.mem_map_of_mem IRModelDef.name h.1
            rw [h.2] at h2
            have hm : crMeasure all (ref :: st.visited) (sizeOf md.schema) < k :=
              lt_of_lt_of_le (crMeasure_jump (unvisitedCount_cons_lt h2 hv)
                (sizeOf_schema_le_max h.1)) hk
            obtain ⟨rr, rc, rcl, rv, rs⟩ :=
              ihA _ hm md.schema ⟨markName ref st.referenced, ref :: st.visited⟩ (le_refl _)
            refine ⟨fun a ha => rr (markName_subset _ _ ha), ?_, ?_, ?_, ?_⟩
            · intro n hn
              rw [List.mem_singleton] at hn
              subst hn
              exact rr (markName_mem_self _ _)
            · intro A h
              have hA2 : closedE all (ref :: A)
                  ⟨markName ref st.referenced, ref :: st.visited⟩ := by
                intro n hn hA md2 hmd2 x hx
                rcases List.mem_cons.mp hn with rfl | hn
                · exact absurd (List.mem_cons_self _ _) hA
                · exact markName_subset _ _
                    (h n hn (fun hc => hA (List.mem_cons_of_mem _ hc)) md2 hmd2 x hx)
              have h3 := rcl (ref :: A) hA2
              intro n hn hA md2 hmd2 x hx
              by_cases hnr : n = ref
              · subst hnr
                rw [hmd] at hmd2
                cases hmd2
                exact rc x hx
              · refine h3 n hn (fun hc => ?_) md2 hmd2 x hx
                rcases List.mem_cons.mp hc with hc | hc
                · exact hnr hc
                · exact hA hc
            · intro h
              apply rv
              intro a ha
              rcases markName_mem ha with rfl | ha
              · exact List.mem_cons_self _ _
              · exact List.mem_cons_of_mem _ (h ha)
            · intro hR hS
              have hRef : Reach all roots ref := hR _ (by simp)
              apply rs
              · intro n hn
                exact Reach.step ref n md hRef hmd hn
              · refine ⟨?_, ?_⟩
                · intro n hn
                  rcases markName_mem hn with rfl | hn
                  · exact hRef
                  · exact hS.1 n hn
                · intro n hn
                  rcases List.mem_cons.mp hn with rfl | hn
                  · exact hRef
                  · exact hS.2 n hn
          · rename_i hmd
            refine ⟨markName_subset _ _, ?_, ?_, ?_, ?_⟩
            · intro n hn
              rw [List.mem_singleton] at hn
              subst hn
              exact markName_mem_self _ _
            · intro A h n hn hA md2 hmd2 x hx
              rcases List.mem_cons.mp hn with rfl | hn
              · rw [hmd] at hmd2
                cases hmd2
              · exact markName_subset _ _ (h n hn hA md2 hmd2 x hx)
            · intro h a ha
              rcases markName_mem ha with rfl | ha
              · exact List.mem_cons_self _ _
              · exact List.mem_cons_of_mem _ (h ha)
            · intro hR hS
              refine ⟨?_, ?_⟩
              · intro n hn
                rcases markName_mem hn with rfl | hn
                · exact hR _ (by simp)
                · exact hS.1 n hn
              · intro n hn
                rcases List.mem_cons.mp hn with rfl | hn
                · exact hR _ (by simp)
                · exact hS.2 n hn
      · exact crPost_nil
    · -- collectRefs
      intro s st hk
      cases s with
      | mk kind nl fmt props addl items ev er eb ref one anyL allL ntM =>
        rw [collectRefs.eq_def]
        dsimp only
        rw [show refNames
              (IRSchema.mk kind nl fmt props addl items ev er eb ref one anyL allL ntM)
            = (if kind = IRKind.ref ∧ ref ≠ "" then [ref] else [])
              ++ refNamesOpt items ++ refNamesOpt addl ++ refNamesList one
              ++ refNamesList anyL ++ refNamesList allL ++ refNamesOpt ntM
              ++ refNamesFields props from rfl]
        have h0 := ihH (crMeasure all st.visited 0)
          (lt_of_lt_of_le (crMeasure_child (le_refl _) (by simp_arith)) hk)
          kind ref st (le_refl _)
        have h2 := ihB (crMeasure all (collectRefHead all kind ref st).1.visited (sizeOf items))
          (lt_of_lt_of_le (crMeasure_child (unvisitedCount_mono (collectRefHead all kind ref st).2 _)
            (by simp_arith)) hk) items (collectRefHead all kind ref st).1 (le_refl _)
        have h3 := ihB (crMeasure all (collectRefsOpt all items (collectRefHead all kind ref st).1).1.visited (sizeOf addl))
          (lt_of_lt_of_le (crMeasure_child (unvisitedCount_mono ((collectRefHead all kind ref st).2.trans (collectRefsOpt all items (collectRefHead all kind ref st).1).2) _)
            (by simp_arith)) hk) addl (collectRefsOpt all items (collectRefHead all kind ref st).1).1 (le_refl _)
        have h4 := ihC (crMeasure all (collectRefsOpt all addl (collectRefsOpt all items (collectRefHead all kind ref st).1).1).1.visited (sizeOf one))
          (lt_of_lt_of_le (crMeasure_child (unvisitedCount_mono (((collectRefHead all kind ref st).2.trans (collectRefsOpt all items (collectRefHead all kind ref st).1).2).trans (collectRefsOpt all addl (collectRefsOpt all items (collectRefHead all kind ref st).1).1).2) _)
            (by simp_arith)) hk) one (collectRefsOpt all addl (collectRefsOpt all items (collectRefHead all kind ref st).1).1).1 (le_refl _)
        have h5 := ihC (crMeasure all (collectRefsList all one (collectRefsOpt all addl (collectRefsOpt all items (collectRefHead all kind ref st).1).1).1).1.visited (sizeOf anyL))
          (lt_of_lt_of_le (crMeasure_child (unvisitedCount_mono ((((collectRefHead all kind ref st).2.trans (collectRefsOpt all items (collectRefHead all kind ref st).1).2).trans (collectRefsOpt all addl (collectRefsOpt all items (collectRefHead all kind ref st).1).1).2).trans (collectRefsList all one (collectRefsOpt all addl (collectRefsOpt all items (collectRefHead all kind ref st).1).1).1).2) _)
            (by simp_arith)) hk) anyL (collectRefsList all one (collectRefsOpt all addl (collectRefsOpt all items (collectRefHead all kind ref st).1).1).1).1 (le_refl _)
        have h6 := ihC (crMeasure all (collectRefsList all anyL (collectRefsList all one (collectRefsOpt all addl (collectRefsOpt all items (collectRefHead all kind ref st).1).1).1).1).1.visited (sizeOf allL))
          (lt_of_lt_of_le (crMeasure_child (unvisitedCount_mono (((((collectRefHead all kind ref st).2.trans (collectRefsOpt all items (collectRefHead all kind ref st).1).2).trans (collectRefsOpt all addl (collectRefsOpt all items (collectRefHead all kind ref st).1).1).2).trans (collectRefsList all one (collectRefsOpt all addl (collectRefsOpt all items (collectRefHead all kind ref st).1).1).1).2).trans (collectRefsList all anyL (collectRefsList all one (collectRefsOpt all addl (collectRefsOpt all items (collectRefHead all kind ref st).1).1).1).1).2) _)
            (by simp_arith)) hk) allL (collectRefsList all anyL (collectRefsList all one (collectRefsOpt all addl (collectRefsOpt all items (collectRefHead all kind ref st).1).1).1).1).1 (le_refl _)
        have h7 := ihB (crMeasure all (collectRefsList all allL (collectRefsList all anyL (collectRefsList all one (collectRefsOpt all addl (collectRefsOpt all items (collectRefHead all kind ref st).1).1).1).1).1).1.visited (sizeOf ntM))
          (lt_of_lt_of_le (crMeasure_child (unvisitedCount_mono ((((((collectRefHead all kind ref st).2.trans (collectRefsOpt all items (collectRefHead all kind ref st).1).2).trans (collectRefsOpt all addl (collectRefsOpt all items (collectRefHead all kind ref st).1).1).2).trans (collectRefsList all one (collectRefsOpt all addl (collectRefsOpt all items (collectRefHead all kind ref st).1).1).1).2).trans (collectRefsList all anyL (collectRefsList all one (collectRefsOpt all addl (collectRefsOpt all items (collectRefHead all kind ref st).1).1).1).1).2).trans (collectRefsList all allL (collectRefsList all anyL (collectRefsList all one (collectRefsOpt all addl (collectRefsOpt all items (collectRefHead all kind ref st).1).1).1).1).1).2) _)
            (by simp_arith)) hk) ntM (collectRefsList all allL (collectRefsList all anyL (collectRefsList all one (collectRefsOpt all addl (collectRefsOpt all items (collectRefHead all kind ref st).1).1).1).1).1).1 (le_refl _)
        have h8 := ihD (crMeasure all (collectRefsOpt all ntM (collectRefsList all allL (collectRefsList all anyL (collectRefsList all one (collectRefsOpt all addl (collectRefsOpt all items (collectRefHead all kind ref st).1).1).1).1).1).1).1.visited (sizeOf props))
          (lt_of_lt_of_le (crMeasure_child (unvisitedCount_mono (((((((collectRefHead all kind ref st).2.trans (collectRefsOpt all items (collectRefHead all kind ref st).1).2).trans (collectRefsOpt all addl (collectRefsOpt all items (collectRefHead all kind ref st).1).1).2).trans (collectRefsList all one (collectRefsOpt all addl (collectRefsOpt all items (collectRefHead all kind ref st).1).1).1).2).trans (collectRefsList all anyL (collectRefsList all one (collectRefsOpt all addl (collectRefsOpt all items (collectRefHead all kind ref st).1).1).1).1).2).trans (collectRefsList all allL (collectRefsList all anyL (collectRefsList all one (collectRefsOpt all addl (collectRefsOpt all items (collectRefHead all kind ref st).1).1).1).1).1).2).trans (collectRefsOpt all ntM (collectRefsList all allL (collectRefsList all anyL (collectRefsList all one (collectRefsOpt all addl (collectRefsOpt all items (collectRefHead all kind ref st).1).1).1).1).1).1).2) _)
            (by simp_arith)) hk) props (collectRefsOpt all ntM (collectRefsList all allL (collectRefsList all anyL (collectRefsList all one (collectRefsOpt all addl (collectRefsOpt all items (collectRefHead all kind ref st).1).1).1).1).1).1).1 (le_refl _)
        exact crPost_append (crPost_append (crPost_append (crPost_append (crPost_append
          (crPost_append (crPost_append h0 h2) h3) h4) h5) h6) h7) h8
    · -- collectRefsOpt
      intro o st hk
      cases o with
      | none =>
          rw [collectRefsOpt.eq_def]
          exact crPost_nil
      | some a =>
          rw [collectRefsOpt.eq_def]
          dsimp only
          exact ihA (crMeasure all st.visited (sizeOf a))
            (lt_of_lt_of_le (crMeasure_child (le_refl _) (by simp_arith)) hk)
            a st (le_refl _)
    · -- collectRefsList
      intro l st hk
      cases l with
      | nil =>
          rw [collectRefsList.eq_def]
          exact crPost_nil
      | cons c cs =>
          rw [collectRefsList.eq_def]
          dsimp only
          have hc := ihA (crMeasure all st.visited (sizeOf c))
            (lt_of_lt_of_le (crMeasure_child (le_refl _) (by simp_arith)) hk)
            c st (le_refl _)
          have hcs := ihC (crMeasure all (collectRefs all c st).1.visited (sizeOf cs))
            (lt_of_lt_of_le (crMeasure_child (unvisitedCount_mono (collectRefs all c st).2 _)
              (by simp_arith)) hk) cs (collectRefs all c st).1 (le_refl _)
          exact crPost_append hc hcs
    · -- collectRefsFields
      intro fs st hk
      cases fs with
      | nil =>
          rw [collectRefsFields.eq_def]
          exact crPost_nil
      | cons f rest =>
          cases f with
          | mk fn ft fr =>
              rw [collectRefsFields.eq_def]
              dsimp only
              have hc := ihA (crMeasure all st.visited (sizeOf ft))
                (lt_of_lt_of_le (crMeasure_child (le_refl _) (by simp_arith)) hk)
                ft st (le_refl _)
              have hcs := ihD (crMeasure all (collectRefs all ft st).1.visited (sizeOf rest))
                (lt_of_lt_of_le (crMeasure_child
                  (unvisitedCount_mono (collectRefs all ft st).2 _)
                  (by simp_arith)) hk) rest (collectRefs all ft st).1 (le_refl _)
              exact crPost_append hc hcs


/-- The root-collection loop composes the collector postcondition over the
root list. -/
theorem collectAllRefs_post (all : List IRModelDef) (roots : List IRSchema) :
    ∀ (rl : List IRSchema) (st : CRState),
    crPost all roots (refNamesList rl) st (collectAllRefs all rl st) := by
  intro rl
  induction rl with
  | nil =>
      intro st
      simp only [collectAllRefs]
      exact crPost_nil
  | cons c cs ih =>
      intro st
      simp only [collectAllRefs]
      exact crPost_append
        ((crInvariant all roots (crMeasure all st.visited (sizeOf c))).2.1 c st (le_refl _))
        (ih (collectRefs all c st).1)

theorem mem_refNamesList {n : String} {rl : List IRSchema} :
    n ∈ refNamesList rl ↔ ∃ s, s ∈ rl ∧ n ∈ refNames s := by
  induction rl with
  | nil => simp [refNamesList]
  | cons c cs ih =>
      simp only [refNamesList, List.mem_append, List.mem_cons, ih]
      constructor
      · rintro (h | ⟨s, hs, hn⟩)
        · exact ⟨c, Or.inl rfl, h⟩
        · exact ⟨s, Or.inr hs, hn⟩
      · rintro ⟨s, rfl | hs, hn⟩
        · exact Or.inl hn
        · exact Or.inr ⟨s, hs, hn⟩

/-- C5: a model definition survives `filterUnusedModelDefs` iff it is in
the full registry and its name lies in the transitive closure of `Ref`
edges starting from the schemas of the filtered operations' path
parameters, query parameters, request bodies and responses, the traversal
being guarded by a visited name-set (so it terminates on cyclic
references) and resolving names through the registry map. -/
theorem filterUnusedModelDefs_reachability (irv : IR) (all : List IRModelDef)
    (md : IRModelDef) :
    md ∈ filterUnusedModelDefs irv all ↔
      md ∈ all ∧ Reach all (opRootSchemas irv) md.name := by
  obtain ⟨hr, hc, hcl, hv, hs⟩ :=
    collectAllRefs_post all (opRootSchemas irv) (opRootSchemas irv) ⟨[], []⟩
  have hsound := hs
    (fun n hn => by
      obtain ⟨s, hsm, hnm⟩ := mem_refNamesList.mp hn
      exact Reach.root s n hsm hnm)
    ⟨fun n hn => absurd hn (List.not_mem_nil n),
      fun n hn => absurd hn (List.not_mem_nil n)⟩
  have hclosed := hcl [] (fun n hn => absurd hn (List.not_mem_nil n))
  have hvis := hv (fun a ha => absurd ha (List.not_mem_nil a))
  have hcomp : ∀ n, Reach all (opRootSchemas irv) n →
      n ∈ (collectAllRefs all (opRootSchemas irv) ⟨[], []⟩).referenced := by
    intro n hn
    induction hn with
    | root s m hsm hnm => exact hc m (mem_refNamesList.mpr ⟨s, hsm, hnm⟩)
    | step m2 n2 md2 hm hlk hnm ih2 =>
        exact hclosed m2 (hvis ih2) (List.not_mem_nil m2) md2 hlk n2 hnm
  constructor
  · intro h
    simp only [filterUnusedModelDefs] at h
    have h2 := List.mem_filter.mp h
    exact ⟨h2.1, hsound.1 md.name (by simpa using h2.2)⟩
  · rintro ⟨hmem, hre⟩
    simp only [filterUnusedModelDefs]
    exact List.mem_filter.mpr ⟨hmem, by simpa using hcomp md.name hre⟩

end SdkGen
